import Mathlib

/-!
# Verification of the fawkes HTTP route tree, middleware chain and dispatcher

A shallow embedding of the core of the `fawkes` HTTP server framework:

* `src/fawkes/tree.hpp` / `src/fawkes/tree.cpp` — the compressed radix route
  tree (`node::add_route`, `node::insert_route`, `node::insert_path`,
  `node::increment_child_priority`, `node::locate`, `detail::find_wildcard`,
  `detail::longest_common_prefix`);
* `src/fawkes/path_params.hpp` — the captured path-parameter container;
* `src/fawkes/middleware.hpp` — the middleware chain
  (`detail::apply_middlewares_impl`, `detail::run_middlewares_pre_handle`,
  `detail::run_middlewares_post_handle`);
* `src/fawkes/router.hpp` — the per-route handler wrapper built by
  `router::add_route` (user-handler failure boundary);
* `src/fawkes/server.hpp` / `src/fawkes/server.cpp` —
  `server::options::effective_read_timeout` and `server::handle_request`.

Byte strings (`std::string` / `std::string_view`) are embedded as `List Char`;
`std::function` route handlers are embedded as `Option Nat` (a handler id, or
none for an empty function); C++ exceptions become `Except Err`; the in-place
mutation of nodes becomes explicit state passing.  Coroutine awaiting
(`co_await`) of middleware results is pure sequencing here: awaiting an
already-computed `middleware_result` has no other observable effect in the
claims under study.
-/

namespace Fawkes

/-- Byte strings of the C++ code (`std::string`, `std::string_view`). -/
abbrev Str := List Char

/-- Error kinds of the exceptions thrown by the tree code.  The C++ code
throws `std::invalid_argument` with a formatted message for the `arg*`
constructors, `std::runtime_error` for an invalid node type during lookup,
and `assert` guards the `internal` situations. -/
inductive Err where
  | argDuplicateHandler
  | argWildcardConflict
  | argInvalidWildcard
  | argWildcardChildrenConflict
  | argCatchAllNotLast
  | argCatchAllRootConflict
  | argNoSlashBeforeCatchAll
  | runtimeInvalidNodeType
  | internal
  deriving DecidableEq, Repr

/-- `fawkes::detail::wildcard_result`: `pos = none` embeds
`std::string_view::npos` (wildcard not found). -/
structure WildcardResult where
  name : Str := []
  pos : Option Nat := none
  deriving DecidableEq, Repr

/-- `wildcard_result::valid_name`: `name.size() > 1`. -/
def WildcardResult.valid_name (w : WildcardResult) : Bool :=
  w.name.length > 1

/-- `fawkes::detail::find_wildcard` (tree.hpp):
`start = path.find_first_of(":*")`; if absent, not found.  Otherwise
`stop = path.find_first_of(":*/", start + 1)`; if absent the name is
`path.substr(start)`; if the stop byte is `/` the name is
`path.substr(start, stop - start)`; otherwise the name is empty (invalid). -/
def find_wildcard (path : Str) : WildcardResult :=
  match path.findIdx? (fun c => c == ':' || c == '*') with
  | none => {}
  | some start =>
    match (path.drop (start + 1)).findIdx? (fun c => c == ':' || c == '*' || c == '/') with
    | none => { name := path.drop start, pos := some start }
    | some d =>
      if path.getD (start + 1 + d) ' ' = '/' then
        { name := (path.drop start).take (d + 1), pos := some start }
      else
        { name := [], pos := some start }

/-- `fawkes::detail::longest_common_prefix` (tree.hpp): length of the common
prefix computed by `std::ranges::mismatch`. -/
def longest_common_prefix : Str → Str → Nat
  | a :: s1, b :: s2 => if a = b then longest_common_prefix s1 s2 + 1 else 0
  | _, _ => 0

/-- `fawkes::node::type` (tree.hpp). -/
inductive NodeType where
  | plain
  | root
  | param
  | catchAll
  deriving DecidableEq, Repr

/-- `fawkes::node` (tree.hpp).  Fields in declaration order: `path_`,
`indices_`, `has_wild_child_`, `type_`, `priority_`, `children_`, `handler_`.
A `std::function` handler is embedded as `Option Nat`: `none` is an empty
function, `some i` a registered handler with id `i`. -/
inductive Node where
  | mk (path : Str) (indices : Str) (wild : Bool) (ty : NodeType)
       (priority : Int) (children : List Node) (handler : Option Nat)
  deriving Repr

def Node.path : Node → Str
  | .mk p _ _ _ _ _ _ => p

def Node.indices : Node → Str
  | .mk _ i _ _ _ _ _ => i

def Node.wild : Node → Bool
  | .mk _ _ w _ _ _ _ => w

def Node.ty : Node → NodeType
  | .mk _ _ _ t _ _ _ => t

def Node.priority : Node → Int
  | .mk _ _ _ _ pr _ _ => pr

def Node.children : Node → List Node
  | .mk _ _ _ _ _ cs _ => cs

def Node.handler : Node → Option Nat
  | .mk _ _ _ _ _ _ h => h

/-- The default-constructed node (`std::make_unique<node>()`). -/
def Node.fresh : Node := .mk [] [] false .plain 0 [] none

mutual

/-- Number of handler-carrying nodes in the subtree rooted at `n`. -/
def countH : Node → Nat
  | .mk _ _ _ _ _ cs h => (if h.isSome then 1 else 0) + countHL cs

/-- Sum of `countH` over a list of nodes. -/
def countHL : List Node → Nat
  | [] => 0
  | c :: cs => countH c + countHL cs

end

mutual

/-- Structural size of a node, ignoring priorities (termination measure). -/
def nsize : Node → Nat
  | .mk _ _ _ _ _ cs _ => 1 + nsizeL cs

/-- Sum of `nsize` over a list of nodes. -/
def nsizeL : List Node → Nat
  | [] => 0
  | c :: cs => nsize c + nsizeL cs

end

mutual

/-- The priority invariant of the spec: at every node of the subtree,
`priority_` equals the number of handler-carrying nodes below (and at) it. -/
def invOK : Node → Bool
  | .mk _ _ _ _ pr cs h =>
    (pr == ((if h.isSome then 1 else 0) + countHL cs : Nat)) && invOKL cs

/-- `invOK` for every node in a list. -/
def invOKL : List Node → Bool
  | [] => true
  | c :: cs => invOK c && invOKL cs

end

/-- `fawkes::detail::param` entries of `fawkes::path_params`
(path_params.hpp): an insertion-ordered list of `(key, value)` captures. -/
abbrev PathParams := List (Str × Str)

/-- `path_params::add`: `ps_.push_back({key, value})`. -/
def path_params_add (ps : PathParams) (key value : Str) : PathParams :=
  ps ++ [(key, value)]

/-- `path_params::get` (path_params.hpp): `std::ranges::find_if` for the first
entry whose key equals `key`; throws `std::out_of_range` — embedded as `none`
— when there is no match, otherwise returns the value of the first matching
entry.  The C++ member is `const`: it reads the container and cannot mutate
it, which the embedding reflects by being a pure function of `ps`. -/
def path_params_get (ps : PathParams) (key : Str) : Option Str :=
  (ps.find? (fun pam => pam.1 == key)).map (·.2)

/-- `path_params::try_get` (path_params.hpp): the same search as
`path_params_get`, returning `std::nullopt` (`none`) instead of throwing. -/
def path_params_try_get (ps : PathParams) (key : Str) : Option Str :=
  (ps.find? (fun pam => pam.1 == key)).map (·.2)

theorem nsize_pos (n : Node) : 0 < nsize n := by
  cases n with
  | mk p i w t pr cs h => simp [nsize]

theorem nsize_le_of_mem {c : Node} {cs : List Node} (h : c ∈ cs) :
    nsize c ≤ nsizeL cs := by
  induction cs with
  | nil => cases h
  | cons d ds ih =>
    rcases List.mem_cons.mp h with rfl | hm
    · simp [nsizeL]
    · have := ih hm
      simp only [nsizeL]
      omega

theorem nsize_lt_of_mem_children {c n : Node} (h : c ∈ n.children) :
    nsize c < nsize n := by
  cases n with
  | mk p i w t pr cs hd =>
    have := @nsize_le_of_mem _ cs h
    simp only [nsize]
    omega

/-- `fawkes::node::locate` (tree.cpp, lines 19–60).  The result embeds the
returned `const route_handler_t*`: `none` is `nullptr`, `some h` is a pointer
to a handler field holding `h`.  The captured parameters `ps` are threaded
explicitly because the C++ code mutates the `path_params&` out-parameter. -/
def locate (n : Node) (path : Str) (ps : PathParams) :
    Except Err (Option (Option Nat) × PathParams) :=
  if path.length = n.path.length then
    .ok (if n.handler.isSome then some n.handler else none, ps)
  else if n.path.length < path.length ∧ n.path.isPrefixOf path then
    let rest := path.drop n.path.length
    if n.wild = false then
      match n.indices.findIdx? (fun c => c == rest.headD ' ') with
      | none => .ok (none, ps)
      | some pos =>
        match hc : n.children[pos]? with
        | none => .error .internal
        | some c => locate c rest ps
    else
      match hcs : n.children with
      | [] => .error .internal
      | child :: _ =>
        match child.ty with
        | .param =>
          match hgcs : child.children, rest.findIdx? (fun c => c == '/') with
          | _, none =>
            .ok (if child.handler.isSome then some child.handler else none,
                 path_params_add ps (child.path.drop 1) rest)
          | [], some e =>
            .ok (none, path_params_add ps (child.path.drop 1) (rest.take e))
          | gc :: _, some e =>
            locate gc (rest.drop e)
              (path_params_add ps (child.path.drop 1) (rest.take e))
        | .catchAll =>
          .ok (some child.handler, path_params_add ps (child.path.drop 2) rest)
        | _ => .error .runtimeInvalidNodeType
  else
    .ok (none, ps)
termination_by path.length + nsize n
decreasing_by
  · have hmem : c ∈ n.children := by
      obtain ⟨hlt, hEq⟩ := List.getElem?_eq_some.mp hc
      exact hEq ▸ List.getElem_mem _
    have h1 := nsize_lt_of_mem_children hmem
    have h2 : (path.drop n.path.length).length ≤ path.length := by
      simp [List.length_drop]
    omega
  · have hchild : child ∈ n.children := by
      rw [hcs]; exact List.mem_cons_self _ _
    have hgc : gc ∈ child.children := by
      rw [hgcs]; exact List.mem_cons_self _ _
    have h1 : nsize gc < nsize child := nsize_lt_of_mem_children hgc
    have h2 := nsize_lt_of_mem_children hchild
    have h3 : ((path.drop n.path.length).drop e).length ≤ path.length := by
      simp [List.length_drop]
    omega

theorem findIdx?_lt_length {α : Type} {p : α → Bool} {l : List α} {i : Nat}
    (h : l.findIdx? p = some i) : i < l.length :=
  (List.findIdx?_eq_some_iff_findIdx_eq.mp h).1

theorem findIdx?_getD {α : Type} {p : α → Bool} {d : α} {l : List α} {i : Nat}
    (h : l.findIdx? p = some i) : p (l.getD i d) = true := by
  obtain ⟨hlt, hidx⟩ := List.findIdx?_eq_some_iff_findIdx_eq.mp h
  have hg : l.getD i d = l.get ⟨i, hlt⟩ := by
    rw [List.getD_eq_getElem?_getD, List.getElem?_eq_getElem hlt]
    rfl
  rw [hg]
  subst hidx
  simpa using List.findIdx_getElem (w := hlt)

theorem find_wildcard_pos_lt {path : Str} {pos : Nat}
    (h : (find_wildcard path).pos = some pos) : pos < path.length := by
  rcases hf : path.findIdx? (fun c => c == ':' || c == '*') with _ | start
  · simp [find_wildcard, hf] at h
  · have hlt := findIdx?_lt_length hf
    rcases hg : (path.drop (start + 1)).findIdx? (fun c => c == ':' || c == '*' || c == '/') with
      _ | d
    · simp [find_wildcard, hf, hg] at h
      omega
    · by_cases hs : path[start + 1 + d]?.getD ' ' = '/' <;>
        simp [find_wildcard, hf, hg, List.getD_eq_getElem?_getD, hs] at h <;> omega

theorem find_wildcard_cons_wild {c : Char} {t : Str} (h : c = ':' ∨ c = '*') :
    (find_wildcard (c :: t)).pos = some 0 := by
  have hp : (c == ':' || c == '*') = true := by
    rcases h with rfl | rfl <;> simp
  rcases hg : t.findIdx? (fun x => x == ':' || x == '*' || x == '/') with _ | d
  · simp [find_wildcard, List.findIdx?_cons, hp, hg]
  · have h1d : (1 : Nat) + d = d + 1 := Nat.add_comm 1 d
    by_cases hs : t[d]?.getD ' ' = '/' <;>
      simp [find_wildcard, List.findIdx?_cons, hp, hg, List.getD_eq_getElem?_getD, h1d,
            List.getElem?_cons_succ, hs]

theorem find_wildcard_none_findIdx {path : Str}
    (h : (find_wildcard path).pos = none) :
    path.findIdx? (fun c => c == ':' || c == '*') = none := by
  rcases hf : path.findIdx? (fun c => c == ':' || c == '*') with _ | start
  · rfl
  · exfalso
    rcases hg : (path.drop (start + 1)).findIdx? (fun c => c == ':' || c == '*' || c == '/') with
      _ | d
    · simp [find_wildcard, hf, hg] at h
    · by_cases hs : path[start + 1 + d]?.getD ' ' = '/' <;>
        simp [find_wildcard, hf, hg, List.getD_eq_getElem?_getD, hs] at h

theorem lcp_le_left : ∀ s t : Str, longest_common_prefix s t ≤ s.length := by
  intro s
  induction s with
  | nil => intro t; cases t <;> simp [ longest_common_prefix]
  | cons a s ih =>
    intro t
    cases t with
    | nil => simp [ longest_common_prefix]
    | cons b t =>
      by_cases hab : a = b <;> simp [ longest_common_prefix, hab]
      have := ih t
      omega

theorem lcp_le_right : ∀ s t : Str, longest_common_prefix s t ≤ t.length := by
  intro s
  induction s with
  | nil => intro t; cases t <;> simp [ longest_common_prefix]
  | cons a s ih =>
    intro t
    cases t with
    | nil => simp [ longest_common_prefix]
    | cons b t =>
      by_cases hab : a = b <;> simp [ longest_common_prefix, hab]
      have := ih t
      omega

theorem lcp_cons_eq {a : Char} (s t : Str) :
    longest_common_prefix (a :: s) (a :: t) = longest_common_prefix s t + 1 := by
  simp [ longest_common_prefix]

/-- Replace a node's priority, keeping everything else. -/
def Node.withPriority : Node → Int → Node
  | .mk p i w t _ cs h, pr => .mk p i w t pr cs h

/-- `++child.priority_`. -/
def bumpPrio (n : Node) : Node := n.withPriority (n.priority + 1)

theorem bumpPrio_nsize (n : Node) : nsize (bumpPrio n) = nsize n := by
  cases n; simp [bumpPrio, Node.withPriority, Node.priority, nsize]

theorem bumpPrio_countH (n : Node) : countH (bumpPrio n) = countH n := by
  cases n; simp [bumpPrio, Node.withPriority, Node.priority, countH]

theorem bumpPrio_fields (n : Node) :
    (bumpPrio n).path = n.path ∧ (bumpPrio n).ty = n.ty ∧
    (bumpPrio n).children = n.children ∧ (bumpPrio n).handler = n.handler ∧
    (bumpPrio n).priority = n.priority + 1 := by
  cases n
  simp [bumpPrio, Node.withPriority, Node.priority, Node.path, Node.ty, Node.children,
        Node.handler]

/-- The node split of `node::insert_route` (tree.cpp, lines 67–82): the part of
`path_` past the common prefix of length `len` moves into a new child that
inherits the node's `indices_`, `has_wild_child_`, `children_` and `handler_`,
with kind `plain` and priority `priority_ - 1`; the node keeps the prefix, its
single index byte is `path_[len]`, its handler is cleared (moved out) and
`has_wild_child_` is reset. -/
def splitNode (n : Node) (len : Nat) : Node :=
  match n with
  | .mk p i w t pr cs h =>
    .mk (p.take len) [p.getD len ' '] false t pr
      [Node.mk (p.drop len) i w .plain (pr - 1) cs h] none

theorem splitNode_fields (n : Node) (len : Nat) :
    (splitNode n len).path = n.path.take len ∧
    (splitNode n len).indices = [n.path.getD len ' '] ∧
    (splitNode n len).wild = false ∧
    (splitNode n len).ty = n.ty ∧
    (splitNode n len).priority = n.priority ∧
    (splitNode n len).handler = none ∧
    (splitNode n len).children =
      [Node.mk (n.path.drop len) n.indices n.wild .plain (n.priority - 1)
        n.children n.handler] := by
  cases n
  simp [splitNode, Node.path, Node.indices, Node.wild, Node.ty, Node.priority, Node.handler,
        Node.children]

theorem splitNode_countH (n : Node) (len : Nat) :
    countH (splitNode n len) = countH n := by
  cases n
  simp [splitNode, countH, countHL]

theorem splitNode_nsize (n : Node) (len : Nat) :
    nsize (splitNode n len) = nsize n + 1 := by
  cases n
  simp [splitNode, nsize, nsizeL]
  omega

/-- The `new_pos` scan of `node::increment_child_priority` (tree.cpp, lines
253–256): starting at `pos`, step left while the left neighbour's priority is
less than `prio`. -/
def bubblePos (cs : List Node) (prio : Int) : Nat → Nat
  | 0 => 0
  | k + 1 => if (cs.getD k Node.fresh).priority < prio then bubblePos cs prio k else k + 1

theorem bubblePos_le (cs : List Node) (prio : Int) : ∀ k, bubblePos cs prio k ≤ k := by
  intro k
  induction k with
  | zero => simp [bubblePos]
  | succ k ih =>
    simp only [bubblePos]
    split
    · omega
    · omega

/-- `node::increment_child_priority` (tree.cpp, lines 246–276): after the
`assert(indices_.size() == children_.size())` guard, increment the priority of
child `pos`, then move it left past siblings of smaller priority
(`std::shift_right` over the children and, in lockstep, over `indices_`);
returns the updated node and the child's new position. -/
def increment_child_priority (n : Node) (pos : Nat) : Except Err (Node × Nat) :=
  match n with
  | .mk p i w t pr cs h =>
    if i.length = cs.length then
      let prio := ((bumpPrio (cs.getD pos Node.fresh))).priority
      let cs1 := cs.set pos (bumpPrio (cs.getD pos Node.fresh))
      let np := bubblePos cs1 prio pos
      if np ≠ pos then
        let cs2 := cs1.take np ++
          cs1.getD pos Node.fresh :: ((cs1.drop np).take (pos - np) ++ cs1.drop (pos + 1))
        let i2 := i.take np ++
          i.getD pos ' ' :: ((i.drop np).take (pos - np) ++ i.drop (pos + 1))
        .ok (.mk p i2 w t pr cs2 h, np)
      else
        .ok (.mk p i w t pr cs1 h, np)
    else
      .error .internal

/-- `node::insert_path` (tree.cpp, lines 151–244).  Both C++ call sites pass
`detail::unknown_wildcard`, so the in-flight scan for a wildcard always runs
at entry; the scan result drives the three branches (no wildcard / parameter /
catch-all).  The `assert(wildcard.pos > 0)` of the catch-all branch is
embedded as `Err.internal`. -/
def insert_path (n : Node) (path full_path : Str) (hd : Nat) : Except Err Node :=
  let w := find_wildcard path
  match hw : w.pos with
  | none =>
    .ok (match n with | .mk _ i wl t pr cs _ => .mk path i wl t pr cs (some hd))
  | some pos =>
    if hv : w.valid_name = false then .error .argInvalidWildcard
    else if n.children.isEmpty = false then .error .argWildcardChildrenConflict
    else if w.name.headD ' ' = ':' then
      let plain := path.take pos
      let npath := if plain = [] then n.path else plain
      let path1 := if plain = [] then path else path.drop plain.length
      if path1.length = w.name.length then
        .ok (match n with
          | .mk _ i _ t pr cs h =>
            .mk npath i true t pr (cs ++ [Node.mk w.name [] false .param 1 [] (some hd)]) h)
      else do
        let grand ← insert_path (Node.mk [] [] false .plain 1 [] none)
          (path1.drop w.name.length) full_path hd
        .ok (match n with
          | .mk _ i _ t pr cs h =>
            .mk npath i true t pr (cs ++ [Node.mk w.name [] false .param 1 [grand] none]) h)
    else
      if pos + w.name.length ≠ path.length then .error .argCatchAllNotLast
      else if n.path ≠ [] ∧ n.path.getLast? = some '/' then .error .argCatchAllRootConflict
      else if hz : pos = 0 then .error .internal
      else if path.getD (pos - 1) ' ' ≠ '/' then .error .argNoSlashBeforeCatchAll
      else
        .ok (match n with
          | .mk _ _ wl t pr cs h =>
            .mk (path.take (pos - 1)) ['/'] wl t pr
              (cs ++
                [Node.mk [] [] true .catchAll 1
                  [Node.mk (path.drop (pos - 1)) [] false .catchAll 1 [] (some hd)] none])
              h)
termination_by path.length
decreasing_by
  have hposlt : pos < path.length := find_wildcard_pos_lt hw
  have hname : 1 < (find_wildcard path).name.length := by
    simpa [WildcardResult.valid_name] using hv
  rw [List.length_drop]
  split <;> rename_i hsp <;> [omega; skip]
  rw [List.length_drop]
  omega

theorem countHL_append (l₁ l₂ : List Node) :
    countHL (l₁ ++ l₂) = countHL l₁ + countHL l₂ := by
  induction l₁ with
  | nil => simp [countHL]
  | cons c t ih => simp [countHL, ih]; omega

theorem nsizeL_append (l₁ l₂ : List Node) :
    nsizeL (l₁ ++ l₂) = nsizeL l₁ + nsizeL l₂ := by
  induction l₁ with
  | nil => simp [nsizeL]
  | cons c t ih => simp [nsizeL, ih]; omega

theorem countH_eq (n : Node) :
    countH n = (if n.handler.isSome then 1 else 0) + countHL n.children := by
  cases n; simp [countH, Node.handler, Node.children]

theorem invOK_eq (n : Node) :
    invOK n = ((n.priority == (countH n : Int)) && invOKL n.children) := by
  cases n; simp [invOK, countH, Node.priority, Node.children]

theorem invOKL_iff (l : List Node) : invOKL l = true ↔ ∀ c ∈ l, invOK c = true := by
  induction l with
  | nil => simp [invOKL]
  | cons c t ih => simp [invOKL, ih]

theorem getElem?_append_cons {α : Type} (A B : List α) (b : α) :
    (A ++ b :: B)[A.length]? = some b := by
  induction A with
  | nil => simp
  | cons a t ih =>
    have hl : (a :: t).length = t.length + 1 := by simp
    rw [List.cons_append, hl, List.getElem?_cons_succ]
    exact ih

theorem set_append_cons {α : Type} (A B : List α) (b c : α) :
    (A ++ b :: B).set A.length c = A ++ c :: B := by
  induction A with
  | nil => simp
  | cons a t ih => simpa using ih

theorem getD_decomp {α : Type} {l : List α} {pos : Nat} (d : α) (h : pos < l.length) :
    l = l.take pos ++ l.getD pos d :: l.drop (pos + 1) := by
  conv_lhs => rw [← List.take_append_drop pos l]
  rw [← List.getElem_cons_drop l pos h]
  congr 1
  rw [List.getD_eq_getElem?_getD, List.getElem?_eq_getElem h]
  rfl

theorem take_set_le {α : Type} {l : List α} {pos np : Nat} {v : α} (h : np ≤ pos) :
    (l.set pos v).take np = l.take np := by
  apply List.ext_getElem?
  intro i
  rw [List.getElem?_take, List.getElem?_take]
  split
  · rw [List.getElem?_set_ne]
    omega
  · rfl

theorem drop_set_lt {α : Type} {l : List α} {pos np : Nat} {v : α} (h : pos < np) :
    (l.set pos v).drop np = l.drop np := by
  apply List.ext_getElem?
  intro i
  rw [List.getElem?_drop, List.getElem?_drop]
  rw [List.getElem?_set_ne]
  omega

theorem middle_set {α : Type} {l : List α} {pos np : Nat} {v : α} (h : np ≤ pos) :
    ((l.set pos v).drop np).take (pos - np) = (l.drop np).take (pos - np) := by
  apply List.ext_getElem?
  intro i
  rw [List.getElem?_take, List.getElem?_take]
  split
  · rw [List.getElem?_drop, List.getElem?_drop, List.getElem?_set_ne]
    omega
  · rfl

theorem getD_set_self {α : Type} {l : List α} {pos : Nat} {v d : α} (h : pos < l.length) :
    (l.set pos v).getD pos d = v := by
  rw [List.getD_eq_getElem?_getD, List.getElem?_set_eq_of_lt v h]
  rfl

theorem icp_ok_lengths {n : Node} {pos : Nat} {r : Node × Nat}
    (hok : increment_child_priority n pos = .ok r) :
    n.indices.length = n.children.length := by
  cases n with
  | mk p i w t pr cs h =>
    simp only [increment_child_priority] at hok
    by_cases hlen : i.length = cs.length
    · simpa [Node.indices, Node.children] using hlen
    · simp [hlen] at hok

theorem icp_fields {n : Node} {pos : Nat} {m : Node} {j : Nat}
    (hok : increment_child_priority n pos = .ok (m, j)) :
    m.path = n.path ∧ m.wild = n.wild ∧ m.ty = n.ty ∧ m.priority = n.priority ∧
      m.handler = n.handler := by
  cases n with
  | mk p i w t pr cs h =>
    simp only [increment_child_priority] at hok
    by_cases hlen : i.length = cs.length
    · rw [if_pos hlen] at hok
      split at hok <;>
        · obtain ⟨rfl, rfl⟩ : _ ∧ _ := by
            injection hok with h1
            injection h1 with h2 h3
            exact ⟨h2.symm, h3.symm⟩
          simp [Node.path, Node.wild, Node.ty, Node.priority, Node.handler]
    · simp [hlen] at hok

theorem icp_indices_length {n : Node} {pos : Nat} {m : Node} {j : Nat}
    (hok : increment_child_priority n pos = .ok (m, j)) (hpos : pos < n.indices.length) :
    m.indices.length = n.indices.length := by
  cases n with
  | mk p i w t pr cs h =>
    simp only [Node.indices] at hpos ⊢
    simp only [increment_child_priority] at hok
    by_cases hlen : i.length = cs.length
    · rw [if_pos hlen] at hok
      split at hok <;> rename_i hnp
      · obtain ⟨hm, _⟩ : _ ∧ _ := by
          injection hok with h1
          injection h1 with h2 h3
          exact ⟨h2.symm, h3.symm⟩
        subst hm
        have hle := bubblePos_le (cs.set pos (bumpPrio (cs.getD pos Node.fresh)))
          (bumpPrio (cs.getD pos Node.fresh)).priority pos
        simp only [Node.indices, List.length_append, List.length_cons, List.length_take,
          List.length_drop]
        omega
      · obtain ⟨hm, _⟩ : _ ∧ _ := by
          injection hok with h1
          injection h1 with h2 h3
          exact ⟨h2.symm, h3.symm⟩
        subst hm
        simp [Node.indices]
    · simp [hlen] at hok

theorem icp_children_decomp {n : Node} {pos : Nat} {m : Node} {j : Nat}
    (hok : increment_child_priority n pos = .ok (m, j)) (hpos : pos < n.children.length) :
    ∃ A B, m.children = A ++ bumpPrio (n.children.getD pos Node.fresh) :: B ∧
      j = A.length ∧
      (∀ c ∈ A, c ∈ n.children) ∧ (∀ c ∈ B, c ∈ n.children) ∧
      countHL A + countH (n.children.getD pos Node.fresh) + countHL B =
        countHL n.children ∧
      nsizeL m.children = nsizeL n.children := by
  cases n with
  | mk p i w t pr cs h =>
    simp only [Node.children] at hpos ⊢
    simp only [increment_child_priority] at hok
    by_cases hlen : i.length = cs.length
    · rw [if_pos hlen] at hok
      set c := cs.getD pos Node.fresh with hc
      set b := bumpPrio c with hb
      set cs1 := cs.set pos b with hcs1
      have hgetc : cs.getD pos Node.fresh = c := hc.symm
      have hcget : c = cs.get ⟨pos, hpos⟩ := by
        rw [hc, List.getD_eq_getElem?_getD, List.getElem?_eq_getElem hpos]
        rfl
      split at hok <;> rename_i hnp
      · -- the child moved left to position np
        obtain ⟨hm, hj⟩ : _ ∧ _ := by
          injection hok with h1
          injection h1 with h2 h3
          exact ⟨h2.symm, h3.symm⟩
        subst hm hj
        set np := bubblePos cs1 b.priority pos with hnpd
        have hle : np ≤ pos := bubblePos_le cs1 b.priority pos
        have hget : cs1.getD pos Node.fresh = b := getD_set_self (by omega)
        have htake : cs1.take np = cs.take np := take_set_le hle
        have hmid : (cs1.drop np).take (pos - np) = (cs.drop np).take (pos - np) :=
          middle_set hle
        have hdrop : cs1.drop (pos + 1) = cs.drop (pos + 1) := drop_set_lt (by omega)
        have hdecomp : cs = cs.take np ++ ((cs.drop np).take (pos - np) ++ c ::
            cs.drop (pos + 1)) := by
          conv_lhs => rw [← List.take_append_drop np cs]
          congr 1
          conv_lhs => rw [← List.take_append_drop (pos - np) (cs.drop np)]
          congr 1
          rw [List.drop_drop]
          have hppn : np + (pos - np) = pos := by omega
          rw [hppn]
          rw [← List.getElem_cons_drop cs pos hpos]
          congr 1
          rw [hcget]
          rfl
        refine ⟨cs.take np, (cs.drop np).take (pos - np) ++ cs.drop (pos + 1), ?_, ?_, ?_, ?_,
          ?_, ?_⟩
        · simp only [Node.children]
          rw [htake, hmid, hdrop, hget]
        · simp [List.length_take]
          omega
        · intro x hx; exact List.mem_of_mem_take hx
        · intro x hx
          rcases List.mem_append.mp hx with hx | hx
          · exact List.mem_of_mem_drop (List.mem_of_mem_take hx)
          · exact List.mem_of_mem_drop hx
        · conv_rhs => rw [hdecomp]
          simp only [countHL_append, countHL]
          omega
        · simp only [Node.children]
          rw [htake, hmid, hdrop, hget]
          conv_rhs => rw [hdecomp]
          simp only [nsizeL_append, nsizeL]
          rw [hb, bumpPrio_nsize]
          omega
      · -- already in position: only the priority bump
        obtain ⟨hm, hj⟩ : _ ∧ _ := by
          injection hok with h1
          injection h1 with h2 h3
          exact ⟨h2.symm, h3.symm⟩
        subst hm hj
        have heqpos : bubblePos cs1 b.priority pos = pos := by
          by_contra hcon
          exact hnp hcon
        have hdecomp0 : cs = cs.take pos ++ c :: cs.drop (pos + 1) := by
          conv_lhs => rw [← List.take_append_drop pos cs]
          congr 1
          rw [← List.getElem_cons_drop cs pos hpos]
          congr 1
          rw [hcget]
          rfl
        have hltake : (cs.take pos).length = pos := by
          simp [List.length_take]
          omega
        have hset : cs1 = cs.take pos ++ b :: cs.drop (pos + 1) := by
          have hsc := set_append_cons (cs.take pos) (cs.drop (pos + 1)) c b
          rw [hltake] at hsc
          rw [hcs1]
          conv_lhs => rw [hdecomp0]
          exact hsc
        refine ⟨cs.take pos, cs.drop (pos + 1), ?_, ?_, ?_, ?_, ?_, ?_⟩
        · simp only [Node.children]
          exact hset
        · simp only [hltake, heqpos]
        · intro x hx; exact List.mem_of_mem_take hx
        · intro x hx; exact List.mem_of_mem_drop hx
        · conv_rhs => rw [hdecomp0]
          simp only [countHL_append, countHL]
          omega
        · simp only [Node.children]
          rw [hset]
          conv_rhs => rw [hdecomp0]
          simp only [nsizeL_append, nsizeL]
          try rw [hb, bumpPrio_nsize]
          try omega
    · simp [hlen] at hok

theorem nsize_eq (n : Node) : nsize n = 1 + nsizeL n.children := by
  cases n; simp [nsize, Node.children]

theorem splitNode_children_nsizeL (n : Node) (len : Nat) :
    nsizeL (splitNode n len).children = nsize n := by
  cases n
  simp [splitNode, Node.children, nsizeL, nsize]

theorem lcp_zero_head {a b : Char} {s t : Str}
    (h : longest_common_prefix (a :: s) (b :: t) = 0) : a ≠ b := by
  intro hab
  subst hab
  rw [lcp_cons_eq] at h
  omega

theorem icp_child_at {n : Node} {pos : Nat} {m : Node} {j : Nat}
    (hok : increment_child_priority n pos = .ok (m, j)) (hpos : pos < n.children.length) :
    m.children[j]? = some (bumpPrio (n.children.getD pos Node.fresh)) := by
  obtain ⟨A, B, hm, hj, _⟩ := icp_children_decomp hok hpos
  rw [hm, hj]
  exact getElem?_append_cons A B _

/-- Ranks `param` nodes above the rest; third component of the termination
measure of `insert_route`. -/
def tyRank (n : Node) : Nat := if n.ty = .param then 1 else 0

theorem lex3_of {a b c a' b' c' : Nat}
    (h : a < a' ∨ (a = a' ∧ (b < b' ∨ (b = b' ∧ c < c')))) :
    Prod.Lex (· < ·) (Prod.Lex (· < ·) (· < ·)) (a, (b, c)) (a', (b', c')) := by
  rcases h with h | ⟨rfl, h | ⟨rfl, h⟩⟩
  · exact Prod.Lex.left _ _ h
  · exact Prod.Lex.right _ (Prod.Lex.left _ _ h)
  · exact Prod.Lex.right _ (Prod.Lex.right _ h)

/-- `node::insert_route` (tree.cpp, lines 62–149): find the target node for
the remaining `path`, splitting the current node at the longest common prefix
when needed, descending through the wild child, the parameter continuation or
the literal `indices_` dispatch, and handing fresh suffixes to
`insert_path`.  Out-of-bounds child accesses that the C++ code guards by
invariants (`children_.front()` on an empty vector) are embedded as
`Err.internal`. -/
def insert_route (n : Node) (path full_path : Str) (hd : Nat) : Except Err Node :=
  let len := longest_common_prefix path n.path
  let n1 := if len < n.path.length then splitNode n len else n
  if hterm : len = path.length then
    if n1.handler.isSome then .error .argDuplicateHandler
    else .ok (match n1 with | .mk p i w t pr cs _ => .mk p i w t pr cs (some hd))
  else
    let rest := path.drop len
    if hwild : n1.wild = true then
      match hcs : n1.children with
      | [] => .error .internal
      | child :: others =>
        if child.path.isPrefixOf rest ∧ child.ty ≠ .catchAll ∧
            (child.path.length = rest.length ∨ rest.getD child.path.length ' ' = '/') then
          do
            let child2 ← insert_route (bumpPrio child) rest full_path hd
            .ok (match n1 with | .mk p i w t pr _ h => .mk p i w t pr (child2 :: others) h)
        else .error .argWildcardConflict
    else
      match hrest : rest with
      | [] => .error .internal
      | idxc :: tl =>
        if hpc : n1.ty = .param ∧ idxc = '/' ∧ n1.children.isEmpty = false then
          match hcs2 : n1.children with
          | [] => .error .internal
          | child :: others => do
            let child2 ← insert_route (bumpPrio child) rest full_path hd
            .ok (match n1 with | .mk p i w t pr _ h => .mk p i w t pr (child2 :: others) h)
        else
          match hfind : n1.indices.findIdx? (fun c => c == idxc) with
          | some pos =>
            match hicp : increment_child_priority n1 pos with
            | .error e => .error e
            | .ok (n2, j) =>
              match hcj : n2.children[j]? with
              | none => .error .internal
              | some cj => do
                let cj2 ← insert_route cj rest full_path hd
                .ok (match n2 with | .mk p i w t pr cs h => .mk p i w t pr (cs.set j cj2) h)
          | none =>
            if idxc ≠ ':' ∧ idxc ≠ '*' then
              let n3 := match n1 with
                | .mk p i w t pr cs h => Node.mk p (i ++ [idxc]) w t pr (cs ++ [Node.fresh]) h
              match increment_child_priority n3 (n3.indices.length - 1) with
              | .error e => .error e
              | .ok (n4, j) =>
                match n4.children[j]? with
                | none => .error .internal
                | some f => do
                  let f2 ← insert_path f rest full_path hd
                  .ok (match n4 with | .mk p i w t pr cs h => .mk p i w t pr (cs.set j f2) h)
            else
              insert_path n1 rest full_path hd
termination_by (path.length, nsize n, tyRank n)
decreasing_by
  · -- wild-child descent
    apply lex3_of
    have hlcp := lcp_le_left path n.path
    have hld := List.length_drop ( longest_common_prefix path n.path) path
    by_cases hz : longest_common_prefix path n.path = 0
    · right
      by_cases hsp : longest_common_prefix path n.path < n.path.length
      · exfalso
        have hn1 : n1 = splitNode n len := by
          unfold_let n1
          exact if_pos hsp
        rw [hn1, (splitNode_fields n _).2.2.1] at hwild
        exact Bool.false_ne_true hwild
      · have hn1 : n1 = n := by
          unfold_let n1
          exact if_neg hsp
        rw [hn1] at hcs
        have hmem : child ∈ n.children := by rw [hcs]; exact List.mem_cons_self _ _
        have := nsize_lt_of_mem_children hmem
        rw [bumpPrio_nsize]
        constructor
        · omega
        · left; omega
    · left; omega
  · -- parameter continuation
    apply lex3_of
    have hlcp := lcp_le_left path n.path
    have hld := List.length_drop ( longest_common_prefix path n.path) path
    by_cases hz : longest_common_prefix path n.path = 0
    · right
      by_cases hsp : longest_common_prefix path n.path < n.path.length
      · -- split happened on an empty common prefix: the inherited child is a
        -- `plain` node of the same structural size, so the type rank drops
        have hn1 : n1 = splitNode n len := by
          unfold_let n1
          exact if_pos hsp
        rw [hn1] at hcs2 hpc
        rw [(splitNode_fields n _).2.2.2.2.2.2] at hcs2
        injection hcs2 with hchild hothers
        subst hchild
        have hty : n.ty = .param := by
          have hsp_ty := (splitNode_fields n len).2.2.2.1
          rw [hsp_ty] at hpc
          exact hpc.1
        refine ⟨by omega, Or.inr ⟨?_, ?_⟩⟩
        · rw [bumpPrio_nsize, nsize_eq n]
          simp [nsize, Node.children]
        · have hrk1 : tyRank n = 1 := by simp [tyRank, hty]
          have hrk0 : tyRank (bumpPrio (Node.mk (n.path.drop len) n.indices n.wild .plain
              (n.priority - 1) n.children n.handler)) = 0 := by
            simp [tyRank, bumpPrio, Node.withPriority, Node.ty]
          rw [hrk0, hrk1]
          omega
      · have hn1 : n1 = n := by
          unfold_let n1
          exact if_neg hsp
        rw [hn1] at hcs2
        have hmem : child ∈ n.children := by rw [hcs2]; exact List.mem_cons_self _ _
        have := nsize_lt_of_mem_children hmem
        rw [bumpPrio_nsize]
        constructor
        · omega
        · left; omega
    · left; omega
  · -- literal dispatch through `indices_`
    apply lex3_of
    have hlcp := lcp_le_left path n.path
    have hld := List.length_drop ( longest_common_prefix path n.path) path
    have hposlt : pos < n1.indices.length := findIdx?_lt_length hfind
    have hlens := icp_ok_lengths hicp
    obtain ⟨_, _, _, _, _, hnsz⟩ := icp_children_decomp hicp (by omega)
    have hmem : cj ∈ n2.children := by
      obtain ⟨hlt, hEq⟩ := List.getElem?_eq_some.mp hcj
      exact hEq ▸ List.getElem_mem _
    have hsz : nsize cj ≤ nsizeL n2.children := nsize_le_of_mem hmem
    by_cases hz : longest_common_prefix path n.path = 0
    · right
      by_cases hsp : longest_common_prefix path n.path < n.path.length
      · exfalso
        -- the split node has the single index byte `path_[0]`, yet it matches
        -- `path[0]`, contradicting an empty common prefix
        have hn1 : n1 = splitNode n len := by
          unfold_let n1
          exact if_pos hsp
        rw [hn1, (splitNode_fields n _).2.1] at hfind
        have hpos1 : pos < 1 := by simpa using findIdx?_lt_length hfind
        have hbeq := findIdx?_getD (d := ' ') hfind
        have hpos0 : pos = 0 := by omega
        subst hpos0
        simp only [List.getD_cons_zero, beq_iff_eq] at hbeq
        have hlen0 : len = 0 := hz
        have hrest2 : List.drop len path = idxc :: tl := hrest
        rw [hlen0] at hbeq
        rw [hlen0, List.drop_zero] at hrest2
        rcases hp : n.path with _ | ⟨q, qt⟩
        · rw [hp] at hsp
          simp only [List.length_nil] at hsp
          omega
        · rw [hp] at hbeq
          simp only [List.getD_cons_zero] at hbeq
          rw [hrest2, hp, ← hbeq] at hz
          rw [lcp_cons_eq] at hz
          omega
      · have hn1 : n1 = n := by
          unfold_let n1
          exact if_neg hsp
        rw [hn1] at hnsz
        have hn : nsizeL n.children < nsize n := by rw [nsize_eq n]; omega
        constructor
        · omega
        · left
          omega
    · left; omega

/-- `node::add_route` (tree.hpp, lines 90–102): increment the node's priority
(the subtree rooted at the node gains one more route), then either seed an
empty root through `insert_path` — marking the node `root` afterwards — or
descend through `insert_route`. -/
def add_route (n : Node) (path : Str) (hd : Nat) : Except Err Node :=
  let n1 := bumpPrio n
  if n1.path.isEmpty && n1.indices.isEmpty then do
    let m ← insert_path n1 path path hd
    .ok (match m with | .mk p i w _ pr cs h => .mk p i w .root pr cs h)
  else
    insert_route n1 path path hd

/-- A sequence of `add_route` calls on a tree; any thrown conflict aborts the
sequence, so a `.ok` result is exactly a run in which every call succeeded. -/
def addRoutes (n : Node) (rs : List (Str × Nat)) : Except Err Node :=
  rs.foldlM (fun t r => add_route t r.1 r.2) n

/-- A node on the root fast path (`path_.empty() && indices_.empty()`)
carries no handler. -/
def Rp (n : Node) : Prop := n.path = [] → n.indices = [] → n.handler = none

theorem find_wildcard_name_le {path : Str} {pos : Nat}
    (h : (find_wildcard path).pos = some pos) :
    (find_wildcard path).name.length ≤ path.length - pos := by
  rcases hf : path.findIdx? (fun c => c == ':' || c == '*') with _ | start
  · simp [find_wildcard, hf] at h
  · rcases hg : (path.drop (start + 1)).findIdx? (fun c => c == ':' || c == '*' || c == '/') with
      _ | d
    · simp only [find_wildcard, hf, hg] at h ⊢
      simp only [Option.some.injEq] at h
      subst h
      simp [List.length_drop]
    · by_cases hs : path[start + 1 + d]?.getD ' ' = '/'
      · simp only [find_wildcard, hf, hg, List.getD_eq_getElem?_getD, hs, if_true] at h ⊢
        simp only [Option.some.injEq] at h
        subst h
        have h1 := List.length_take (d + 1) (path.drop start)
        have h2 := List.length_drop start path
        omega
      · simp only [find_wildcard, hf, hg, List.getD_eq_getElem?_getD, hs, if_false,
          reduceIte] at h ⊢
        simp only [Option.some.injEq] at h
        subst h
        simp

theorem insert_path_spec :
    ∀ (N : Nat) (n : Node) (path full_path : Str) (hd : Nat) (m : Node),
      path.length ≤ N →
      insert_path n path full_path hd = .ok m →
      path ≠ [] →
      ((find_wildcard path).pos = none → n.handler = none) →
      (∀ c ∈ n.children, invOK c = true) →
      (m.priority = n.priority ∧ countH m = countH n + 1 ∧
        (∀ c ∈ m.children, invOK c = true) ∧ (Rp n → Rp m)) := by
  intro N
  induction N with
  | zero =>
    intro n path full_path hd m hN hok hnp _ _
    exfalso
    apply hnp
    cases path with
    | nil => rfl
    | cons a t => simp at hN
  | succ N ih =>
    intro n path full_path hd m hN hok hnp hhand hkids
    cases n with
    | mk p i w t pr cs h =>
    rw [insert_path.eq_def] at hok
    dsimp only at hok
    split at hok
    case _ hw =>
      -- no wildcard: the node takes the remaining path and the handler
      have hh : h = none := hhand hw
      subst hh
      injection hok with hm
      subst hm
      refine ⟨rfl, ?_, ?_, ?_⟩
      · simp [countH, Node.children, Node.handler]
        try omega
      · intro c hc
        exact hkids c (by simpa [Node.children] using hc)
      · intro _ hmp
        exfalso
        simp only [Node.path] at hmp
        exact hnp hmp
    case _ pos hw =>
      split at hok
      case isTrue => exact absurd hok (by simp)
      case isFalse hv =>
      split at hok
      case isTrue => exact absurd hok (by simp)
      case isFalse hne =>
      have hcs : cs = [] := by
        simp only [Node.children, List.isEmpty_eq_false] at hne
        by_contra hc
        exact hne hc
      subst hcs
      have hposlt : pos < path.length := find_wildcard_pos_lt hw
      split at hok
      case isTrue hcolon =>
        have hpath1 : (if List.take pos path = [] then path
            else List.drop (List.take pos path).length path) = List.drop pos path := by
          by_cases hpl : List.take pos path = []
          · rw [if_pos hpl]
            rcases List.take_eq_nil_iff.mp hpl with h0 | h0
            · rw [h0, List.drop_zero]
            · exact absurd h0 hnp
          · rw [if_neg hpl]
            congr 1
            simp [List.length_take]
            omega
        rw [hpath1] at hok
        split at hok
        case isTrue hleaf =>
          -- the pattern ends at the parameter: the param child is the leaf
          injection hok with hm
          subst hm
          refine ⟨rfl, ?_, ?_, ?_⟩
          · simp [countH, countHL, Node.children, Node.handler]
          · intro c hc
            simp only [Node.children, List.nil_append, List.mem_singleton] at hc
            subst hc
            simp [invOK, invOKL, countHL]
          · intro hrp hmp hmi
            simp only [Node.path] at hmp
            simp only [Node.indices] at hmi
            by_cases hpl : List.take pos path = []
            · rw [if_pos hpl] at hmp
              exact hrp hmp hmi
            · rw [if_neg hpl] at hmp
              exact absurd hmp hpl
        case isFalse hdeep =>
          -- there is a further sub-path below the parameter
          rcases hrec : insert_path (Node.mk [] [] false .plain 1 [] none)
              (List.drop (find_wildcard path).name.length (List.drop pos path))
              full_path hd with e | grand
          · rw [hrec] at hok
            exact absurd hok (by simp [Bind.bind, Except.bind])
          · rw [hrec] at hok
            simp only [Bind.bind, Except.bind] at hok
            injection hok with hm
            subst hm
            have hvt : (find_wildcard path).valid_name = true := by
              revert hv
              cases (find_wildcard path).valid_name <;> simp
            have hname2 : 1 < (find_wildcard path).name.length := by
              simpa [WildcardResult.valid_name] using hvt
            have hnmle : (find_wildcard path).name.length ≤ path.length - pos :=
              find_wildcard_name_le hw
            have hdl1 : (List.drop pos path).length = path.length - pos :=
              List.length_drop pos path
            have hdl2 : (List.drop (find_wildcard path).name.length
                  (List.drop pos path)).length =
                (List.drop pos path).length - (find_wildcard path).name.length :=
              List.length_drop _ _
            have hdeep2 : (List.drop pos path).length ≠ (find_wildcard path).name.length :=
              hdeep
            have hlenN : (List.drop (find_wildcard path).name.length
                (List.drop pos path)).length ≤ N := by
              omega
            have hargne : (List.drop (find_wildcard path).name.length
                (List.drop pos path)) ≠ [] := by
              intro hargeq
              have hlz := congrArg List.length hargeq
              simp only [List.length_nil] at hlz
              omega
            obtain ⟨hgp, hgc, hgk, _⟩ := ih _ _ _ _ _ hlenN hrec hargne
              (by intro _; rfl) (by intro c hc; cases hc)
            have hgp1 : grand.priority = 1 := hgp
            have hgc1 : countH grand = 1 := by
              rw [hgc]
              simp [countH, countHL]
            have hginv : invOK grand = true := by
              rw [invOK_eq, Bool.and_eq_true, invOKL_iff]
              refine ⟨?_, hgk⟩
              rw [hgp1, hgc1]
              simp
            refine ⟨rfl, ?_, ?_, ?_⟩
            · simp [countH, countHL, Node.children, Node.handler, hgc1]
              try omega
            · intro c hc
              simp only [Node.children, List.nil_append, List.mem_singleton] at hc
              subst hc
              rw [invOK_eq, Bool.and_eq_true, invOKL_iff]
              constructor
              · simp [Node.priority, countH, countHL, Node.children, hgc1]
              · intro c hc
                simp only [Node.children, List.mem_singleton] at hc
                subst hc
                exact hginv
            · intro hrp hmp hmi
              simp only [Node.path] at hmp
              simp only [Node.indices] at hmi
              by_cases hpl : List.take pos path = []
              · rw [if_pos hpl] at hmp
                exact hrp hmp hmi
              · rw [if_neg hpl] at hmp
                exact absurd hmp hpl
      case isFalse hcolon =>
        split at hok
        case isTrue => exact absurd hok (by simp)
        case isFalse hlast =>
        split at hok
        case isTrue => exact absurd hok (by simp)
        case isFalse hroot =>
        split at hok
        case isTrue => exact absurd hok (by simp)
        case isFalse hz =>
        split at hok
        case isTrue => exact absurd hok (by simp)
        case isFalse hslash =>
        -- valid catch-all: the gateway and the variable node are created
        injection hok with hm
        subst hm
        refine ⟨rfl, ?_, ?_, ?_⟩
        · simp [countH, countHL, Node.children, Node.handler]
        · intro c hc
          simp only [Node.children, List.nil_append, List.mem_singleton] at hc
          subst hc
          simp [invOK, invOKL, countHL, countH]
        · intro _ _ hmi
          simp only [Node.indices] at hmi
          exact absurd hmi (by simp)


theorem tyRank_le (n : Node) : tyRank n ≤ 1 := by
  unfold tyRank
  split <;> omega

theorem tyRank_bumpPrio (c : Node) : tyRank (bumpPrio c) = tyRank c := by
  unfold tyRank
  rw [(bumpPrio_fields c).2.1]

theorem insert_route_spec :
    ∀ (N : Nat) (n : Node) (path full_path : Str) (hd : Nat) (m : Node),
      2 * path.length + 2 * nsize n + tyRank n ≤ N →
      insert_route n path full_path hd = .ok m →
      path ≠ [] →
      n.priority = countH n + 1 →
      (∀ c ∈ n.children, invOK c = true) →
      (m.priority = n.priority ∧ countH m = countH n + 1 ∧
        (∀ c ∈ m.children, invOK c = true) ∧ (Rp n → Rp m)) := by
  intro N
  induction N with
  | zero =>
    intro n path full_path hd m hN hok hnp _ _
    exfalso
    have := nsize_pos n
    omega
  | succ N ih =>
    intro n path full_path hd m hN hok hnp hpr hkids
    cases n with
    | mk p i w t pr cs h =>
    rw [insert_route.eq_def] at hok
    dsimp only [Node.path, Node.indices, Node.wild, Node.ty, Node.priority, Node.children,
      Node.handler] at hok
    set n1 : Node := if longest_common_prefix path p < p.length then
        splitNode (Node.mk p i w t pr cs h) ( longest_common_prefix path p)
      else Node.mk p i w t pr cs h with hn1
    have hlcp_p : longest_common_prefix path p ≤ p.length := lcp_le_right path p
    have hlcp_path : longest_common_prefix path p ≤ path.length := lcp_le_left path p
    have hn1facts : n1.priority = pr ∧ countH n1 = countH (Node.mk p i w t pr cs h) ∧
        (∀ c ∈ n1.children, invOK c = true) ∧
        (Rp (Node.mk p i w t pr cs h) → Rp n1) ∧
        nsizeL n1.children ≤ nsize (Node.mk p i w t pr cs h) ∧
        longest_common_prefix path p ≤ n1.path.length ∧ n1.ty = t := by
      rw [hn1]
      by_cases hsp : longest_common_prefix path p < p.length
      · rw [if_pos hsp]
        obtain ⟨f1, f2, f3, f4, f5, f6, f7⟩ :=
          splitNode_fields (Node.mk p i w t pr cs h) ( longest_common_prefix path p)
        refine ⟨?_, splitNode_countH _ _, ?_, ?_, ?_, ?_, f4⟩
        · exact f5
        · rw [f7]
          intro c hc
          simp only [List.mem_singleton] at hc
          subst hc
          rw [invOK_eq, Bool.and_eq_true, invOKL_iff]
          constructor
          · simp only [Node.priority, Node.path, Node.indices, Node.wild, Node.children,
              Node.handler]
            have hcnt : countH (Node.mk (p.drop ( longest_common_prefix path p)) i w .plain
                (pr - 1) cs h) = countH (Node.mk p i w t pr cs h) := by
              simp [countH]
            rw [hcnt]
            have hpr2 : pr = (countH (Node.mk p i w t pr cs h) : Int) + 1 := hpr
            simp only [beq_iff_eq]
            omega
          · intro c hc
            simp only [Node.children] at hc
            exact hkids c hc
        · intro _
          intro hp1 hi1
          exfalso
          rw [f2] at hi1
          simp at hi1
        · rw [f7]
          have hsc := splitNode_children_nsizeL (Node.mk p i w t pr cs h)
            ( longest_common_prefix path p)
          rw [f7] at hsc
          omega
        · rw [f1]
          simp only [Node.path, List.length_take]
          omega
      · rw [if_neg hsp]
        refine ⟨rfl, rfl, hkids, fun hrp => hrp, ?_, ?_, rfl⟩
        · rw [nsize_eq]
          omega
        · simp only [Node.path]
          exact hlcp_p
    obtain ⟨hn1pr, hn1cnt, hn1k, hn1rp, hn1nsL, hn1plen, hn1ty⟩ := hn1facts
    clear_value n1
    rcases hn1e : n1 with ⟨p1, i1, w1, t1, pr1, cs1, h1⟩
    subst hn1e
    dsimp only at hok
    split at hok
    case isTrue hterm =>
      -- terminal: the handler lands on the (possibly split) node
      split at hok
      case isTrue => exact absurd hok (by simp)
      case isFalse hh1 =>
        injection hok with hm
        subst hm
        have hh1n : h1 = none := by
          cases h1
          · rfl
          · simp at hh1
        subst hh1n
        refine ⟨hn1pr, ?_, ?_, ?_⟩
        · have hc1 : countH (Node.mk p1 i1 w1 t1 pr1 cs1 (some hd)) = 1 + countHL cs1 := by
            simp [countH]
          have hc2 : countH (Node.mk p1 i1 w1 t1 pr1 cs1 none) = countHL cs1 := by
            simp [countH]
          rw [hc1, ← hn1cnt, hc2]
          omega
        · intro c hc
          exact hn1k c hc
        · intro hrp hmp hmi
          exfalso
          have hplen : 1 ≤ path.length := by
            cases path
            · exact absurd rfl hnp
            · simp
          have hp1 : (p1 : Str) = [] := hmp
          have hlp1 : longest_common_prefix path p ≤ p1.length := hn1plen
          rw [hp1] at hlp1
          simp at hlp1
          omega
    case isFalse hterm =>
      have hlen_lt : longest_common_prefix path p < path.length := by omega
      have hrestlen : (path.drop ( longest_common_prefix path p)).length =
          path.length - longest_common_prefix path p := List.length_drop _ _
      have hrestne : path.drop ( longest_common_prefix path p) ≠ [] := by
        intro he
        have hl2 := congrArg List.length he
        simp only [List.length_nil] at hl2
        omega
      have hnn : nsize (Node.mk p i w t pr cs h) = 1 + nsizeL cs := nsize_eq _
      split at hok
      case isTrue hwild =>
        subst hwild
        -- a wild child can only be present when no split happened
        have hnos : ¬ ( longest_common_prefix path p < p.length) := by
          intro hsp
          rw [if_pos hsp] at hn1
          have hwf : (true : Bool) = false := by
            have hsf := (splitNode_fields (Node.mk p i w t pr cs h)
              ( longest_common_prefix path p)).2.2.1
            rw [← hn1] at hsf
            exact hsf
          exact absurd hwf (by simp)
        rw [if_neg hnos] at hn1
        injection hn1 with e1 e2 e3 e4 e5 e6 e7
        subst e1 e2 e3 e4 e5 e6 e7
        split at hok
        case _ => exact absurd hok (by simp)
        case _ child others =>
          split at hok
          case isFalse => exact absurd hok (by simp)
          case isTrue hcond =>
            rcases hrec : insert_route (bumpPrio child)
                (path.drop ( longest_common_prefix path p1)) full_path hd with e | child2
            · rw [hrec] at hok
              exact absurd hok (by simp [Bind.bind, Except.bind])
            · rw [hrec] at hok
              simp only [Bind.bind, Except.bind] at hok
              injection hok with hm
              subst hm
              have hinv := hkids child (List.mem_cons_self _ _)
              rw [invOK_eq, Bool.and_eq_true, invOKL_iff] at hinv
              obtain ⟨hcpr, hck⟩ := hinv
              rw [beq_iff_eq] at hcpr
              have hszc : nsize child ≤ nsizeL (child :: others) :=
                nsize_le_of_mem (List.mem_cons_self _ _)
              have hmu : 2 * (path.drop ( longest_common_prefix path p1)).length +
                  2 * nsize (bumpPrio child) + tyRank (bumpPrio child) ≤ N := by
                rw [bumpPrio_nsize, tyRank_bumpPrio]
                have hr1 := tyRank_le child
                have hr0 : 0 ≤ tyRank (Node.mk p1 i1 true t1 pr1 (child :: others) h1) :=
                  Nat.zero_le _
                omega
              have hbp : (bumpPrio child).priority = countH (bumpPrio child) + 1 := by
                rw [(bumpPrio_fields child).2.2.2.2, bumpPrio_countH, hcpr]
              have hbk : ∀ c ∈ (bumpPrio child).children, invOK c = true := by
                rw [(bumpPrio_fields child).2.2.1]
                exact hck
              obtain ⟨hc2pr, hc2cnt, hc2k, _⟩ := ih _ _ _ _ _ hmu hrec hrestne hbp hbk
              have e3 : countH child2 = countH child + 1 := by
                rw [hc2cnt, bumpPrio_countH]
              refine ⟨rfl, ?_, ?_, ?_⟩
              · have e1 : countH (Node.mk p1 i1 true t1 pr1 (child2 :: others) h1) =
                    (if h1.isSome then 1 else 0) + (countH child2 + countHL others) := by
                  simp [countH, countHL]
                have e2 : countH (Node.mk p1 i1 true t1 pr1 (child :: others) h1) =
                    (if h1.isSome then 1 else 0) + (countH child + countHL others) := by
                  simp [countH, countHL]
                rw [e1, e2, e3]
                omega
              · intro c hc
                simp only [Node.children] at hc
                rcases List.mem_cons.mp hc with rfl | hc
                · rw [invOK_eq, Bool.and_eq_true, invOKL_iff]
                  refine ⟨?_, hc2k⟩
                  rw [beq_iff_eq, hc2pr, (bumpPrio_fields child).2.2.2.2, hcpr, e3]
                  push_cast
                  ring
                · exact hkids c (List.mem_cons_of_mem _ hc)
              · intro hrp hmp hmi
                exact hrp hmp hmi
      case isFalse hwild =>
        split at hok
        case _ => exact absurd hok (by simp)
        case _ idxc tl heq =>
        split at hok
        case isTrue hpc =>
          -- descend through the single child of a `param` node
          obtain ⟨hty1, hslash, hcne⟩ := hpc
          split at hok
          case _ => exact absurd hok (by simp)
          case _ child others =>
            rcases hrec : insert_route (bumpPrio child)
                (path.drop ( longest_common_prefix path p)) full_path hd with e | child2
            · rw [hrec] at hok
              exact absurd hok (by simp [Bind.bind, Except.bind])
            · rw [hrec] at hok
              simp only [Bind.bind, Except.bind] at hok
              injection hok with hm
              subst hm
              have hinv := hn1k child (List.mem_cons_self _ _)
              rw [invOK_eq, Bool.and_eq_true, invOKL_iff] at hinv
              obtain ⟨hcpr, hck⟩ := hinv
              rw [beq_iff_eq] at hcpr
              have hszc : nsize child ≤ nsizeL (child :: others) :=
                nsize_le_of_mem (List.mem_cons_self _ _)
              have hmu : 2 * (path.drop ( longest_common_prefix path p)).length +
                  2 * nsize (bumpPrio child) + tyRank (bumpPrio child) ≤ N := by
                rw [bumpPrio_nsize, tyRank_bumpPrio]
                by_cases hsp : longest_common_prefix path p < p.length
                · rw [if_pos hsp] at hn1
                  simp only [splitNode] at hn1
                  injection hn1 with g1 g2 g3 g4 g5 g6 g7
                  have hco : child = Node.mk (p.drop ( longest_common_prefix path p)) i w
                      .plain (pr - 1) cs h ∧ others = [] := by
                    have := g6
                    injection this with ha hb
                    exact ⟨ha, hb⟩
                  obtain ⟨hcoe, hoe⟩ := hco
                  have hns_child : nsize child = 1 + nsizeL cs := by
                    rw [hcoe]
                    simp [nsize, Node.children]
                  have hty_t : t = .param := by
                    rw [← g4]
                    exact hty1
                  have hrank_nn : tyRank (Node.mk p i w t pr cs h) = 1 := by
                    simp [tyRank, Node.ty, hty_t]
                  have hrank_child : tyRank child = 0 := by
                    rw [hcoe]
                    simp [tyRank, Node.ty]
                  rw [hrank_child]
                  rw [hrank_nn] at hN
                  omega
                · rw [if_neg hsp] at hn1
                  injection hn1 with g1 g2 g3 g4 g5 g6 g7
                  have hnsc : nsizeL cs = nsizeL (child :: others) := by rw [← g6]
                  have hrank_child := tyRank_le child
                  have hrank_nn : 0 ≤ tyRank (Node.mk p i w t pr cs h) := Nat.zero_le _
                  omega
              have hbp : (bumpPrio child).priority = countH (bumpPrio child) + 1 := by
                rw [(bumpPrio_fields child).2.2.2.2, bumpPrio_countH, hcpr]
              have hbk : ∀ c ∈ (bumpPrio child).children, invOK c = true := by
                rw [(bumpPrio_fields child).2.2.1]
                exact hck
              obtain ⟨hc2pr, hc2cnt, hc2k, _⟩ := ih _ _ _ _ _ hmu hrec hrestne hbp hbk
              have e3 : countH child2 = countH child + 1 := by
                rw [hc2cnt, bumpPrio_countH]
              refine ⟨hn1pr, ?_, ?_, ?_⟩
              · have e1 : countH (Node.mk p1 i1 w1 t1 pr1 (child2 :: others) h1) =
                    (if h1.isSome then 1 else 0) + (countH child2 + countHL others) := by
                  simp [countH, countHL]
                have e2 : countH (Node.mk p1 i1 w1 t1 pr1 (child :: others) h1) =
                    (if h1.isSome then 1 else 0) + (countH child + countHL others) := by
                  simp [countH, countHL]
                rw [e1, ← hn1cnt, e2, e3]
                omega
              · intro c hc
                simp only [Node.children] at hc
                rcases List.mem_cons.mp hc with rfl | hc
                · rw [invOK_eq, Bool.and_eq_true, invOKL_iff]
                  refine ⟨?_, hc2k⟩
                  rw [beq_iff_eq, hc2pr, (bumpPrio_fields child).2.2.2.2, hcpr, e3]
                  push_cast
                  ring
                · exact hn1k c (List.mem_cons_of_mem _ hc)
              · intro hrp hmp hmi
                exact (hn1rp hrp) hmp hmi
        case isFalse hpc =>
          split at hok
          case h_1 pos hfind =>
            have hposlt : pos < i1.length := findIdx?_lt_length hfind
            split at hok
            case h_1 => exact absurd hok (by simp)
            case h_2 n2 j hicp =>
              obtain ⟨p2, i2, w2, t2, pr2, cs2, h2⟩ := n2
              split at hok
              case h_1 => exact absurd hok (by simp)
              case h_2 cj hcj =>
                have hplt : pos < cs1.length := by
                  have := icp_ok_lengths hicp
                  simp only [Node.indices, Node.children] at this
                  omega
                have hposc : pos < (Node.mk p1 i1 w1 t1 pr1 cs1 h1).children.length := hplt
                have hcat := icp_child_at hicp hposc
                obtain ⟨A, B, hdec, hj, hmemA, hmemB, hcntd, hnszd⟩ :=
                  icp_children_decomp hicp hposc
                obtain ⟨hf1, hf2, hf3, hf4, hf5⟩ := icp_fields hicp
                have hcje : bumpPrio (cs1.getD pos Node.fresh) = cj := by
                  have := hcat.symm.trans hcj
                  injection this
                have hcmem : cs1.getD pos Node.fresh ∈ cs1 := by
                  rw [List.getD_eq_getElem?_getD, List.getElem?_eq_getElem hplt,
                    Option.getD_some]
                  exact List.getElem_mem hplt
                have hinv := hn1k _ hcmem
                rw [invOK_eq, Bool.and_eq_true, invOKL_iff] at hinv
                obtain ⟨hcpr, hck⟩ := hinv
                rw [beq_iff_eq] at hcpr
                have hszc : nsize (cs1.getD pos Node.fresh) ≤ nsizeL cs1 :=
                  nsize_le_of_mem hcmem
                rcases hrec : insert_route cj
                    (path.drop ( longest_common_prefix path p)) full_path hd with e | cj2
                · rw [hrec] at hok
                  exact absurd hok (by simp [Bind.bind, Except.bind])
                · rw [hrec] at hok
                  simp only [Bind.bind, Except.bind] at hok
                  injection hok with hm
                  have hm2 : Node.mk p2 i2 w2 t2 pr2 (cs2.set j cj2) h2 = m := hm
                  subst hm2
                  have hmu : 2 * (path.drop ( longest_common_prefix path p)).length +
                      2 * nsize cj + tyRank cj ≤ N := by
                    rw [← hcje, bumpPrio_nsize, tyRank_bumpPrio]
                    have hr1 := tyRank_le (cs1.getD pos Node.fresh)
                    by_cases hsp : longest_common_prefix path p < p.length
                    · by_cases hz : longest_common_prefix path p = 0
                      · exfalso
                        rw [if_pos hsp] at hn1
                        simp only [splitNode] at hn1
                        injection hn1 with g1 g2 g3 g4 g5 g6 g7
                        rw [g2] at hfind
                        have hpos1 : pos < 1 := by
                          simpa using findIdx?_lt_length hfind
                        have hbeq := findIdx?_getD (d := ' ') hfind
                        have hpos0 : pos = 0 := by omega
                        subst hpos0
                        simp only [List.getD_cons_zero, beq_iff_eq] at hbeq
                        have hlen0 : longest_common_prefix path p = 0 := hz
                        have hrest2 : List.drop ( longest_common_prefix path p) path =
                            idxc :: tl := heq
                        rw [hlen0] at hbeq
                        rw [hlen0, List.drop_zero] at hrest2
                        rcases hpe : p with _ | ⟨q, qt⟩
                        · rw [hpe] at hsp
                          simp only [List.length_nil] at hsp
                          omega
                        · rw [hpe] at hbeq
                          simp only [List.getD_cons_zero] at hbeq
                          rw [hrest2, hpe, ← hbeq] at hz
                          rw [lcp_cons_eq] at hz
                          omega
                      · rw [if_pos hsp] at hn1
                        simp only [splitNode] at hn1
                        injection hn1 with g1 g2 g3 g4 g5 g6 g7
                        have hnsl : nsizeL cs1 = 1 + nsizeL cs := by
                          rw [g6]
                          simp [nsizeL, nsize]
                        have hz1 : 1 ≤ longest_common_prefix path p :=
                          Nat.one_le_iff_ne_zero.mpr hz
                        omega
                    · rw [if_neg hsp] at hn1
                      injection hn1 with g1 g2 g3 g4 g5 g6 g7
                      have hnsl : nsizeL cs1 = nsizeL cs := by rw [g6]
                      omega
                  have hbp : cj.priority = countH cj + 1 := by
                    rw [← hcje, (bumpPrio_fields _).2.2.2.2, bumpPrio_countH, hcpr]
                  have hbk : ∀ x ∈ cj.children, invOK x = true := by
                    rw [← hcje, (bumpPrio_fields _).2.2.1]
                    exact hck
                  obtain ⟨hc2pr, hc2cnt, hc2k, _⟩ := ih _ _ _ _ _ hmu hrec hrestne hbp hbk
                  have e3 : countH cj2 = countH (cs1.getD pos Node.fresh) + 1 := by
                    rw [hc2cnt, ← hcje, bumpPrio_countH]
                  have hdec2 : cs2 = A ++ bumpPrio (cs1.getD pos Node.fresh) :: B := hdec
                  have hcntd2 : countHL A + countH (cs1.getD pos Node.fresh) + countHL B =
                      countHL cs1 := hcntd
                  have hset2 : cs2.set j cj2 = A ++ cj2 :: B := by
                    rw [hdec2, hj]
                    exact set_append_cons A B _ _
                  have h2e : (h2 : Option Nat) = h1 := hf5
                  refine ⟨?_, ?_, ?_, ?_⟩
                  · have hp2 : (pr2 : Int) = pr1 := hf4
                    rw [← hn1pr]
                    exact hp2
                  · have e1 : countH (Node.mk p2 i2 w2 t2 pr2 (cs2.set j cj2) h2) =
                        (if h2.isSome then 1 else 0) + countHL (cs2.set j cj2) := by
                      simp [countH]
                    have e4 : countHL (cs2.set j cj2) =
                        countHL A + (countH cj2 + countHL B) := by
                      rw [hset2, countHL_append]
                      simp [countHL]
                    have e5 : countH (Node.mk p1 i1 w1 t1 pr1 cs1 h1) =
                        (if h1.isSome then 1 else 0) + countHL cs1 := by
                      simp [countH]
                    rw [e1, e4, e3, h2e, ← hn1cnt, e5]
                    omega
                  · intro x hx
                    simp only [Node.children] at hx
                    rw [hset2] at hx
                    rcases List.mem_append.mp hx with hx | hx
                    · exact hn1k x (hmemA x hx)
                    · rcases List.mem_cons.mp hx with rfl | hx
                      · rw [invOK_eq, Bool.and_eq_true, invOKL_iff]
                        refine ⟨?_, hc2k⟩
                        rw [beq_iff_eq, hc2pr, ← hcje, (bumpPrio_fields _).2.2.2.2, hcpr, e3]
                        push_cast
                        ring
                      · exact hn1k x (hmemB x hx)
                  · intro hrp hmp hmi
                    exfalso
                    have hil : i2.length = i1.length := icp_indices_length hicp hposlt
                    have hi2 : (i2 : Str) = [] := hmi
                    rw [hi2] at hil
                    simp only [List.length_nil] at hil
                    omega
          case h_2 hfind =>
            split at hok
            case isTrue hnc =>
              -- create a fresh literal child indexed by the head byte
              split at hok
              case h_1 => exact absurd hok (by simp)
              case h_2 n4 j hicp =>
                obtain ⟨p4, i4, w4, t4, pr4, cs4, h4⟩ := n4
                have hilen : i1.length = cs1.length := by
                  have := icp_ok_lengths hicp
                  simp only [Node.indices, Node.children, List.length_append,
                    List.length_cons, List.length_nil] at this
                  omega
                have hpos3 : List.length (i1 ++ [idxc]) - 1 = cs1.length := by
                  simp only [List.length_append, List.length_cons, List.length_nil]
                  omega
                have hposc : List.length (i1 ++ [idxc]) - 1 <
                    (Node.mk p1 (i1 ++ [idxc]) w1 t1 pr1 (cs1 ++ [Node.fresh])
                      h1).children.length := by
                  simp only [Node.children, List.length_append, List.length_cons,
                    List.length_nil]
                  omega
                have hgetf : (cs1 ++ [Node.fresh]).getD (List.length (i1 ++ [idxc]) - 1)
                    Node.fresh = Node.fresh := by
                  rw [hpos3, List.getD_eq_getElem?_getD, getElem?_append_cons cs1 []
                    Node.fresh]
                  rfl
                have hgetfA : (Node.mk p1 (i1 ++ [idxc]) w1 t1 pr1 (cs1 ++ [Node.fresh])
                    h1).children.getD (List.length (i1 ++ [idxc]) - 1) Node.fresh =
                    Node.fresh := hgetf
                have hcat := icp_child_at hicp hposc
                rw [hgetfA] at hcat
                obtain ⟨A, B, hdec, hj, hmemA, hmemB, hcntd, hnszd⟩ :=
                  icp_children_decomp hicp hposc
                rw [hgetfA] at hdec hcntd
                obtain ⟨hf1, hf2, hf3, hf4, hf5⟩ := icp_fields hicp
                split at hok
                case h_1 => exact absurd hok (by simp)
                case h_2 f hcf =>
                  have hfe : bumpPrio Node.fresh = f := by
                    have := hcat.symm.trans hcf
                    injection this
                  rcases hrec : insert_path f
                      (path.drop ( longest_common_prefix path p)) full_path hd with e | f2
                  · rw [hrec] at hok
                    exact absurd hok (by simp [Bind.bind, Except.bind])
                  · rw [hrec] at hok
                    simp only [Bind.bind, Except.bind] at hok
                    injection hok with hm
                    have hm2 : Node.mk p4 i4 w4 t4 pr4 (cs4.set j f2) h4 = m := hm
                    subst hm2
                    obtain ⟨hppr, hpcnt, hpk, _⟩ := insert_path_spec
                      (path.drop ( longest_common_prefix path p)).length _ _ _ _ _
                      le_rfl hrec hrestne
                      (by
                        intro _
                        rw [← hfe, (bumpPrio_fields _).2.2.2.1]
                        rfl)
                      (by
                        intro c hc
                        rw [← hfe, (bumpPrio_fields _).2.2.1] at hc
                        simp [Node.fresh, Node.children] at hc)
                    have hfpr : (f.priority : Int) = 1 := by
                      rw [← hfe, (bumpPrio_fields _).2.2.2.2]
                      rfl
                    have hfcnt : countH f = 0 := by
                      rw [← hfe, bumpPrio_countH]
                      rfl
                    have e3 : countH f2 = 1 := by rw [hpcnt, hfcnt]
                    have hdec2 : cs4 = A ++ bumpPrio Node.fresh :: B := hdec
                    have hcntd2 : countHL A + countH Node.fresh + countHL B =
                        countHL (cs1 ++ [Node.fresh]) := hcntd
                    have hnilc : countHL [] = 0 := rfl
                    have hcfr : countHL (cs1 ++ [Node.fresh]) = countHL cs1 := by
                      rw [countHL_append]
                      simp [countHL, countH, Node.fresh, hnilc]
                    have hfr0 : countH Node.fresh = 0 := rfl
                    have hset2 : cs4.set j f2 = A ++ f2 :: B := by
                      rw [hdec2, hj]
                      exact set_append_cons A B _ _
                    have h2e : (h4 : Option Nat) = h1 := hf5
                    refine ⟨?_, ?_, ?_, ?_⟩
                    · have hp2 : (pr4 : Int) = pr1 := hf4
                      rw [← hn1pr]
                      exact hp2
                    · have e1 : countH (Node.mk p4 i4 w4 t4 pr4 (cs4.set j f2) h4) =
                          (if h4.isSome then 1 else 0) + countHL (cs4.set j f2) := by
                        simp [countH]
                      have e4 : countHL (cs4.set j f2) =
                          countHL A + (countH f2 + countHL B) := by
                        rw [hset2, countHL_append]
                        simp [countHL]
                      have e5 : countH (Node.mk p1 i1 w1 t1 pr1 cs1 h1) =
                          (if h1.isSome then 1 else 0) + countHL cs1 := by
                        simp [countH]
                      rw [e1, e4, e3, h2e, ← hn1cnt, e5]
                      omega
                    · intro x hx
                      simp only [Node.children] at hx
                      rw [hset2] at hx
                      have hfreshOK : invOK Node.fresh = true := rfl
                      have hsideOK : ∀ y, y ∈ cs1 ++ [Node.fresh] → invOK y = true := by
                        intro y hy
                        rcases List.mem_append.mp hy with hy | hy
                        · exact hn1k y hy
                        · simp only [List.mem_singleton] at hy
                          subst hy
                          exact hfreshOK
                      rcases List.mem_append.mp hx with hx | hx
                      · exact hsideOK x (hmemA x hx)
                      · rcases List.mem_cons.mp hx with rfl | hx
                        · rw [invOK_eq, Bool.and_eq_true, invOKL_iff]
                          refine ⟨?_, hpk⟩
                          rw [beq_iff_eq, hppr, hfpr, e3]
                          simp
                        · exact hsideOK x (hmemB x hx)
                    · intro hrp hmp hmi
                      exfalso
                      have hposi : List.length (i1 ++ [idxc]) - 1 <
                          (Node.mk p1 (i1 ++ [idxc]) w1 t1 pr1 (cs1 ++ [Node.fresh])
                            h1).indices.length := by
                        simp only [Node.indices, List.length_append, List.length_cons,
                          List.length_nil]
                        omega
                      have hil := icp_indices_length hicp hposi
                      have hi2 : (i4 : Str) = [] := hmi
                      have hil2 : i4.length = (i1 ++ [idxc]).length := hil
                      rw [hi2] at hil2
                      simp only [List.length_nil, List.length_append, List.length_cons,
                        List.length_nil] at hil2
                      omega
            case isFalse hnc =>
              -- head byte is `:` or `*`: insert the wildcard right here
              have hwc : idxc = ':' ∨ idxc = '*' := by
                by_contra hcon
                push_neg at hcon
                exact hnc ⟨hcon.1, hcon.2⟩
              have hfw : (find_wildcard (path.drop ( longest_common_prefix path p))).pos =
                  some 0 := by
                rw [heq]
                exact find_wildcard_cons_wild hwc
              obtain ⟨hppr, hpcnt, hpk, hprp⟩ := insert_path_spec
                (path.drop ( longest_common_prefix path p)).length _ _ _ _ _ le_rfl hok
                hrestne (fun hno => absurd (hfw.symm.trans hno) (by simp)) hn1k
              refine ⟨hppr.trans hn1pr, ?_, hpk, ?_⟩
              · rw [hpcnt, hn1cnt]
              · intro hrp
                exact hprp (hn1rp hrp)

theorem add_route_spec (n : Node) (path : Str) (hd : Nat) (m : Node)
    (hok : add_route n path hd = .ok m) (hne : path ≠ [])
    (hinv : invOK n = true) (hrp : Rp n) :
    invOK m = true ∧ Rp m := by
  cases n with
  | mk p i w t pr cs h =>
    rw [invOK_eq, Bool.and_eq_true, invOKL_iff] at hinv
    obtain ⟨hpr, hkids⟩ := hinv
    rw [beq_iff_eq] at hpr
    rw [add_route] at hok
    dsimp only [bumpPrio, Node.withPriority, Node.priority, Node.path, Node.indices] at hok
    split at hok
    case isTrue hcond =>
      rw [Bool.and_eq_true, List.isEmpty_iff, List.isEmpty_iff] at hcond
      obtain ⟨hpe, hie⟩ := hcond
      subst hpe hie
      rcases hip : insert_path (Node.mk [] [] w t (pr + 1) cs h) path path hd with e | m1
      · rw [hip] at hok
        exact absurd hok (by simp [Bind.bind, Except.bind])
      · rw [hip] at hok
        simp only [Bind.bind, Except.bind] at hok
        obtain ⟨pm, im, wm, tm, prm, csm, hm⟩ := m1
        injection hok with hme
        have hme2 : Node.mk pm im wm .root prm csm hm = m := hme
        subst hme2
        have hh : (h : Option Nat) = none := hrp rfl rfl
        obtain ⟨hppr, hpcnt, hpk, hprp⟩ := insert_path_spec path.length _ _ _ _ _
          le_rfl hip hne (fun _ => hh) hkids
        have hprm : (prm : Int) = pr + 1 := hppr
        have hcntm : countH (Node.mk pm im wm tm prm csm hm) =
            countH (Node.mk [] [] w t (pr + 1) cs h) + 1 := hpcnt
        have hcnt1 : countH (Node.mk [] [] w t (pr + 1) cs h) =
            countH (Node.mk [] [] w t pr cs h) := rfl
        constructor
        · rw [invOK_eq, Bool.and_eq_true, invOKL_iff]
          constructor
          · rw [beq_iff_eq]
            have hcr : countH (Node.mk pm im wm .root prm csm hm) =
                countH (Node.mk pm im wm tm prm csm hm) := rfl
            rw [hcr, hcntm, hcnt1]
            dsimp only [Node.priority]
            have hpr2 : pr = (countH (Node.mk [] [] w t pr cs h) : Int) := hpr
            omega
          · intro c hc
            exact hpk c hc
        · intro hmp hmi
          have hRp1 : Rp (Node.mk [] [] w t (pr + 1) cs h) := by
            intro _ _
            exact hh
          exact hprp hRp1 hmp hmi
    case isFalse hcond =>
      obtain ⟨hmpr, hmcnt, hmk, hmrp⟩ := insert_route_spec
        (2 * path.length + 2 * nsize (Node.mk p i w t (pr + 1) cs h) +
          tyRank (Node.mk p i w t (pr + 1) cs h)) _ _ _ _ _ le_rfl hok hne
        (by
          dsimp only [Node.priority]
          have hc1 : countH (Node.mk p i w t (pr + 1) cs h) =
              countH (Node.mk p i w t pr cs h) := rfl
          rw [hc1]
          have hpr2 : pr = (countH (Node.mk p i w t pr cs h) : Int) := hpr
          omega)
        hkids
      constructor
      · rw [invOK_eq, Bool.and_eq_true, invOKL_iff]
        refine ⟨?_, hmk⟩
        rw [beq_iff_eq, hmpr, hmcnt]
        dsimp only [Node.priority]
        have hc1 : countH (Node.mk p i w t (pr + 1) cs h) =
            countH (Node.mk p i w t pr cs h) := rfl
        rw [hc1]
        have hpr2 : pr = (countH (Node.mk p i w t pr cs h) : Int) := hpr
        omega
      · intro hmp hmi
        have hRp1 : Rp (Node.mk p i w t (pr + 1) cs h) := by
          intro h1 h2
          exact hrp h1 h2
        exact hmrp hRp1 hmp hmi

theorem addRoutes_spec : ∀ (rs : List (Str × Nat)) (n t : Node),
    (∀ r ∈ rs, r.1 ≠ []) → addRoutes n rs = .ok t → invOK n = true → Rp n →
    invOK t = true ∧ Rp t := by
  intro rs
  induction rs with
  | nil =>
    intro n t _ hok hinv hrp
    simp only [addRoutes, List.foldlM_nil] at hok
    injection hok with he
    subst he
    exact ⟨hinv, hrp⟩
  | cons r rest ih =>
    intro n t hne hok hinv hrp
    simp only [addRoutes, List.foldlM_cons] at hok
    rcases h1 : add_route n r.1 r.2 with e | n2
    · rw [h1] at hok
      exact absurd hok (by simp [Bind.bind, Except.bind])
    · rw [h1] at hok
      simp only [Bind.bind, Except.bind] at hok
      obtain ⟨hi2, hr2⟩ := add_route_spec _ _ _ _ h1 (hne r (List.mem_cons_self _ _))
        hinv hrp
      exact ih n2 t (fun x hx => hne x (List.mem_cons_of_mem _ hx)) hok hi2 hr2

theorem insert_path_no_wildcard (n : Node) (path full_path : Str) (hd : Nat)
    (h : (find_wildcard path).pos = none) :
    insert_path n path full_path hd =
      .ok (match n with | .mk _ i wl t pr cs _ => .mk path i wl t pr cs (some hd)) := by
  cases n with
  | mk p i wl t pr cs h0 =>
    rw [insert_path.eq_def]
    dsimp only
    split
    · rfl
    · rename_i pos hw
      rw [h] at hw
      exact absurd hw (by simp)

/-- C2: for every sequence of `add_route` calls on a fresh tree that all
succeed (`addRoutes … = .ok t`), every node of the resulting tree has its
`priority_` field equal to the number of handler-carrying nodes in the
subtree rooted at it — the predicate `invOK`.  As literally stated the claim
fails for an empty pattern, which silently overwrites the root handler while
still incrementing `priority_` (see the counterexample theorem); the claim
is proved here under the amendment that every registered pattern is
nonempty. -/
theorem addRoutes_priority_counts_handlers (rs : List (Str × Nat)) (t : Node)
    (hne : ∀ r ∈ rs, r.1 ≠ []) (hok : addRoutes Node.fresh rs = .ok t) :
    invOK t = true :=
  (addRoutes_spec rs Node.fresh t hne hok rfl (fun _ _ => rfl)).1

theorem addRoutes_priority_counts_handlers_witness :
    invOK (Node.mk ['/', 'p'] [] false .root 1 [] (some 7)) = true := by
  have h2 : add_route Node.fresh ['/', 'p'] 7 =
      .ok (Node.mk ['/', 'p'] [] false .root 1 [] (some 7)) := by
    simp +decide [add_route, Node.fresh, bumpPrio, Node.withPriority, Node.priority,
      Node.path, Node.indices, insert_path_no_wildcard, Bind.bind, Except.bind]
  have h1 : addRoutes Node.fresh [((['/', 'p'] : Str), 7)] =
      .ok (Node.mk ['/', 'p'] [] false .root 1 [] (some 7)) := by
    simp only [addRoutes, List.foldlM_cons, List.foldlM_nil, h2, Bind.bind, Except.bind]
    rfl
  exact addRoutes_priority_counts_handlers [((['/', 'p'] : Str), 7)] _
    (by
      intro r hr
      rw [List.mem_singleton] at hr
      subst hr
      simp)
    h1

/-- The claim of C2 as literally stated is false: registering the empty
pattern twice succeeds both times (the second registration silently
overwrites the root handler on the `add_route` fast path), yet the root's
`priority_` ends at 2 while its subtree carries a single handler. -/
theorem addRoutes_empty_pattern_counterexample :
    addRoutes Node.fresh [(([] : Str), 0), (([] : Str), 1)] =
      .ok (Node.mk [] [] false .root 2 [] (some 1)) ∧
    invOK (Node.mk [] [] false .root 2 [] (some 1)) = false := by
  constructor
  · have h1 : add_route Node.fresh [] 0 =
        .ok (Node.mk [] [] false .root 1 [] (some 0)) := by
      simp +decide [add_route, Node.fresh, bumpPrio, Node.withPriority, Node.priority,
        Node.path, Node.indices, insert_path_no_wildcard, Bind.bind, Except.bind]
    have h2 : add_route (Node.mk [] [] false .root 1 [] (some 0)) [] 1 =
        .ok (Node.mk [] [] false .root 2 [] (some 1)) := by
      simp +decide [add_route, bumpPrio, Node.withPriority, Node.priority,
        Node.path, Node.indices, insert_path_no_wildcard, Bind.bind, Except.bind]
    simp only [addRoutes, List.foldlM_cons, List.foldlM_nil, h1, Bind.bind, Except.bind,
      h2]
    rfl
  · rfl

/-- C1: refuted — the claim (and the spec) require the handler to be returned
at the terminal node only when the remaining path is byte-for-byte equal to
the node's `path_`, but `node::locate` (tree.cpp, line 20) compares only the
lengths.  Registering `/ping` and looking up `/pong` therefore returns the
`/ping` handler even though no registered pattern matches `/pong`. -/
theorem locate_matches_on_length_only :
    (add_route Node.fresh ['/', 'p', 'i', 'n', 'g'] 1).bind
      (fun t => locate t ['/', 'p', 'o', 'n', 'g'] []) =
    .ok (some (some 1), []) := by
  have h1 : add_route Node.fresh ['/', 'p', 'i', 'n', 'g'] 1 =
      .ok (Node.mk ['/', 'p', 'i', 'n', 'g'] [] false .root 1 [] (some 1)) := by
    simp +decide [add_route, Node.fresh, bumpPrio, Node.withPriority, Node.priority,
      Node.path, Node.indices, insert_path_no_wildcard, Bind.bind, Except.bind]
  rw [h1]
  simp only [Except.bind]
  rw [locate.eq_def]
  simp +decide [Node.path, Node.handler]

theorem find_wildcard_name_at_end {path : Str} {pos : Nat}
    (hpos : (find_wildcard path).pos = some pos)
    (hlen : pos + (find_wildcard path).name.length = path.length)
    (hv : 1 < (find_wildcard path).name.length) :
    (find_wildcard path).name = path.drop pos := by
  rcases hf : path.findIdx? (fun c => c == ':' || c == '*') with _ | start
  · simp [find_wildcard, hf] at hpos
  · rcases hg : (path.drop (start + 1)).findIdx? (fun c => c == ':' || c == '*' || c == '/')
      with _ | d
    · simp only [find_wildcard, hf, hg, Option.some.injEq] at hpos ⊢
      subst hpos
      rfl
    · have hdlt := findIdx?_lt_length hg
      rw [List.length_drop] at hdlt
      by_cases hs : path.getD (start + 1 + d) ' ' = '/'
      · exfalso
        simp only [find_wildcard, hf, hg, if_pos hs, Option.some.injEq] at hpos hlen
        subst hpos
        rw [List.length_take, List.length_drop] at hlen
        omega
      · exfalso
        simp only [find_wildcard, hf, hg, if_neg hs] at hv
        simp at hv

/-- C7: corrected — inserting a valid catch-all pattern does create the two
nested `catch_all` nodes of the claim: an empty-path gateway with
`has_wild_child = true` whose single child is a `catch_all` node that starts
at the `/` preceding the `*name` token, extends to the end of the pattern and
carries the handler.  But the `"/"` index byte is stored in `indices_` of the
node receiving the insertion (tree.cpp, line 243), not of the gateway: the
gateway's `indices_` stay empty, refuting the claim's placement. -/
theorem insert_path_catch_all_layout (n : Node) (path full_path : Str) (hd : Nat)
    (m : Node) (pos : Nat)
    (hok : insert_path n path full_path hd = .ok m)
    (hpos : (find_wildcard path).pos = some pos)
    (hstar : (find_wildcard path).name.headD ' ' ≠ ':') :
    m.indices = ['/'] ∧
    m.children.getLast? = some (Node.mk [] [] true .catchAll 1
      [Node.mk (path.drop (pos - 1)) [] false .catchAll 1 [] (some hd)] none) ∧
    path.getD (pos - 1) ' ' = '/' ∧ 1 ≤ pos ∧
    (find_wildcard path).name = path.drop pos := by
  cases n with
  | mk p i wl t pr cs h0 =>
    rw [insert_path.eq_def] at hok
    dsimp only at hok
    split at hok
    case _ hw =>
      rw [hw] at hpos
      exact absurd hpos (by simp)
    case _ pos2 hw =>
      rw [hpos] at hw
      injection hw with hw2
      subst hw2
      split at hok
      case isTrue => exact absurd hok (by simp)
      case isFalse hv =>
        have hv2 : 1 < (find_wildcard path).name.length := by
          simpa [WildcardResult.valid_name] using hv
        split at hok
        case isTrue => exact absurd hok (by simp)
        case isFalse hch =>
          split at hok
          case isTrue => exact absurd hok (by simp)
          case isFalse hlen =>
            split at hok
            case isTrue => exact absurd hok (by simp)
            case isFalse hroot =>
              split at hok
              case isTrue => exact absurd hok (by simp)
              case isFalse hz =>
                split at hok
                case isTrue => exact absurd hok (by simp)
                case isFalse hslash =>
                  injection hok with hm
                  subst hm
                  push_neg at hlen hslash
                  refine ⟨rfl, ?_, hslash, by omega, ?_⟩
                  · simp only [Node.children]
                    exact List.getLast?_concat _
                  · exact find_wildcard_name_at_end hpos hlen hv2

theorem insert_path_catch_all_layout_witness :
    (Node.mk ['/', 's'] ['/'] false .plain 1
      [Node.mk [] [] true .catchAll 1
        [Node.mk ['/', '*', 'f'] [] false .catchAll 1 [] (some 3)] none] none).indices =
      ['/'] ∧
    (Node.mk ['/', 's'] ['/'] false .plain 1
      [Node.mk [] [] true .catchAll 1
        [Node.mk ['/', '*', 'f'] [] false .catchAll 1 [] (some 3)] none]
          none).children.getLast? =
      some (Node.mk [] [] true .catchAll 1
        [Node.mk ((['/', 's', '/', '*', 'f'] : Str).drop (3 - 1)) [] false .catchAll 1 []
          (some 3)] none) ∧
    (['/', 's', '/', '*', 'f'] : Str).getD (3 - 1) ' ' = '/' ∧ 1 ≤ 3 ∧
    (find_wildcard ['/', 's', '/', '*', 'f']).name =
      (['/', 's', '/', '*', 'f'] : Str).drop 3 :=
  insert_path_catch_all_layout (Node.mk [] [] false .plain 1 [] none)
    ['/', 's', '/', '*', 'f'] ['/', 's', '/', '*', 'f'] 3
    (Node.mk ['/', 's'] ['/'] false .plain 1
      [Node.mk [] [] true .catchAll 1
        [Node.mk ['/', '*', 'f'] [] false .catchAll 1 [] (some 3)] none] none) 3
    (by rw [insert_path.eq_def]; rfl) (by decide) (by decide)

/-- C7 counterexample: registering the catch-all pattern `/s/*f` on a fresh
tree succeeds and produces the two nested `catch_all` nodes, but the
empty-path gateway's `indices_` is empty — the `"/"` index byte lands on the
parent `/s` node (tree.cpp, line 243) — refuting the claim's
`indices = "/"` on the gateway. -/
theorem catch_all_gateway_empty_indices :
    add_route Node.fresh ['/', 's', '/', '*', 'f'] 3 =
      .ok (Node.mk ['/', 's'] ['/'] false .root 1
        [Node.mk [] [] true .catchAll 1
          [Node.mk ['/', '*', 'f'] [] false .catchAll 1 [] (some 3)] none] none) ∧
    (Node.mk [] [] true .catchAll 1
      [Node.mk ['/', '*', 'f'] [] false .catchAll 1 [] (some 3)] none).indices ≠
      ['/'] := by
  constructor
  · have hip : insert_path (Node.mk [] [] false .plain 1 [] none)
        ['/', 's', '/', '*', 'f'] ['/', 's', '/', '*', 'f'] 3 =
        .ok (Node.mk ['/', 's'] ['/'] false .plain 1
          [Node.mk [] [] true .catchAll 1
            [Node.mk ['/', '*', 'f'] [] false .catchAll 1 [] (some 3)] none] none) := by
      rw [insert_path.eq_def]
      rfl
    simp +decide [add_route, Node.fresh, bumpPrio, Node.withPriority, Node.priority,
      Node.path, Node.indices, hip, Bind.bind, Except.bind]
  · simp [Node.indices]

/-- `server::options::effective_read_timeout` (server.hpp, lines 54–62):
`const auto [min, max] = std::minmax(read_timeout, serve_timeout); if (max <=
0ms) return 0ms; return min > 0ms ? min : max;`.  Durations are embedded as
`Int` milliseconds. -/
def effective_read_timeout (read_timeout serve_timeout : Int) : Int :=
  let mn := min read_timeout serve_timeout
  let mx := max read_timeout serve_timeout
  if mx ≤ 0 then 0
  else if mn > 0 then mn else mx

/-- C4: `effective_read_timeout` returns `min rt st` when both are positive,
the positive one when exactly one is positive, and 0 (timeout disabled) when
neither is; zero and negative configured values count as disabled. -/
theorem effective_read_timeout_spec (rt st : Int) :
    (0 < rt → 0 < st → effective_read_timeout rt st = min rt st) ∧
    (0 < rt → st ≤ 0 → effective_read_timeout rt st = rt) ∧
    (rt ≤ 0 → 0 < st → effective_read_timeout rt st = st) ∧
    (rt ≤ 0 → st ≤ 0 → effective_read_timeout rt st = 0) := by
  unfold effective_read_timeout
  dsimp only
  refine ⟨?_, ?_, ?_, ?_⟩ <;> intro h1 h2 <;> split_ifs <;> omega

/-- C8: at a node whose wild child is a `catch_all` node, `locate` (tree.cpp,
lines 50–52) captures a parameter whose name is the child's `path_` with its
first two bytes (the `/` moved in front and the `*`) stripped, and whose
value is the entire remaining lookup path — which retains its leading `/`
since the node's own `path_` stops before it — and returns the child's
handler. -/
theorem locate_catch_all_capture (n : Node) (path : Str) (ps : PathParams)
    (child : Node) (tl : List Node)
    (hlen : n.path.length < path.length)
    (hpre : n.path.isPrefixOf path = true)
    (hwild : n.wild = true)
    (hcs : n.children = child :: tl)
    (hty : child.ty = .catchAll) :
    locate n path ps = .ok (some child.handler,
      path_params_add ps (child.path.drop 2) (path.drop n.path.length)) := by
  cases n with
  | mk p i w ty pr cs h0 =>
    have hw : w = true := hwild
    subst hw
    have hcs2 : cs = child :: tl := hcs
    subst hcs2
    obtain ⟨cp, ci, cw, cty, cpr, ccs, ch⟩ := child
    have hty2 : cty = .catchAll := hty
    subst hty2
    have hlen2 : p.length < path.length := hlen
    have hpre2 : p.isPrefixOf path = true := hpre
    rw [locate.eq_def]
    dsimp only [Node.path, Node.wild, Node.children, Node.ty, Node.handler]
    rw [if_neg (by omega), if_pos ⟨hlen2, hpre2⟩, if_neg (by simp)]

theorem locate_catch_all_capture_witness :
    locate (Node.mk [] [] true .catchAll 1
        [Node.mk ['/', '*', 'f'] [] false .catchAll 1 [] (some 3)] none)
      ['/', 'a'] [] =
      .ok (some (some 3), [((['f'] : Str), (['/', 'a'] : Str))]) :=
  locate_catch_all_capture
    (Node.mk [] [] true .catchAll 1
      [Node.mk ['/', '*', 'f'] [] false .catchAll 1 [] (some 3)] none)
    ['/', 'a'] []
    (Node.mk ['/', '*', 'f'] [] false .catchAll 1 [] (some 3)) []
    (by decide) (by decide) (by decide) rfl rfl

/-- C9: `locate` is not params-frame-preserving on failure.  With the single
route `/u/:id/t`, looking up `/u/42/xy` returns no handler, yet the capture
`(id, "42")` has already been appended to the `path_params` before the tail
mismatch is discovered (tree.cpp, lines 37–49 record the capture before
recursing into the rest of the path). -/
theorem locate_failure_keeps_partial_params :
    (add_route Node.fresh ['/', 'u', '/', ':', 'i', 'd', '/', 't'] 5).bind
      (fun t => locate t ['/', 'u', '/', '4', '2', '/', 'x', 'y'] []) =
    .ok (none, [((['i', 'd'] : Str), (['4', '2'] : Str))]) := by
  have hgrand : insert_path (Node.mk [] [] false .plain 1 [] none) ['/', 't']
      ['/', 'u', '/', ':', 'i', 'd', '/', 't'] 5 =
      .ok (Node.mk ['/', 't'] [] false .plain 1 [] (some 5)) := by
    rw [insert_path_no_wildcard _ _ _ _ (by decide)]
  have hip : insert_path (Node.mk [] [] false .plain 1 [] none)
      ['/', 'u', '/', ':', 'i', 'd', '/', 't'] ['/', 'u', '/', ':', 'i', 'd', '/', 't'] 5 =
      .ok (Node.mk ['/', 'u', '/'] [] true .plain 1
        [Node.mk [':', 'i', 'd'] [] false .param 1
          [Node.mk ['/', 't'] [] false .plain 1 [] (some 5)] none] none) := by
    rw [insert_path.eq_def]
    dsimp only
    split
    case _ hw => exact absurd hw (by decide)
    case _ pos hw =>
      have h3 : (find_wildcard ['/', 'u', '/', ':', 'i', 'd', '/', 't']).pos = some 3 := by
        decide
      rw [h3] at hw
      have hp3 : pos = 3 := (Option.some.inj hw).symm
      subst hp3
      have hname : (find_wildcard ['/', 'u', '/', ':', 'i', 'd', '/', 't']).name =
          [':', 'i', 'd'] := by decide
      simp +decide [hname, hgrand, Bind.bind, Except.bind]
  have hadd : add_route Node.fresh ['/', 'u', '/', ':', 'i', 'd', '/', 't'] 5 =
      .ok (Node.mk ['/', 'u', '/'] [] true .root 1
        [Node.mk [':', 'i', 'd'] [] false .param 1
          [Node.mk ['/', 't'] [] false .plain 1 [] (some 5)] none] none) := by
    simp +decide [add_route, Node.fresh, bumpPrio, Node.withPriority, Node.priority,
      Node.path, Node.indices, hip, Bind.bind, Except.bind]
  have hloc2 : locate (Node.mk ['/', 't'] [] false .plain 1 [] (some 5))
      ['/', 'x', 'y'] [((['i', 'd'] : Str), (['4', '2'] : Str))] =
      .ok (none, [((['i', 'd'] : Str), (['4', '2'] : Str))]) := by
    rw [locate.eq_def]
    rfl
  have hloc : locate (Node.mk ['/', 'u', '/'] [] true .root 1
      [Node.mk [':', 'i', 'd'] [] false .param 1
        [Node.mk ['/', 't'] [] false .plain 1 [] (some 5)] none] none)
      ['/', 'u', '/', '4', '2', '/', 'x', 'y'] [] =
      .ok (none, [((['i', 'd'] : Str), (['4', '2'] : Str))]) := by
    rw [locate.eq_def]
    dsimp only
    rw [if_neg (by decide), if_pos (by decide), if_neg (by decide)]
    split
    next heq => simp [Node.children] at heq
    next child tail heq =>
      simp only [Node.children] at heq
      injection heq with ha hb
      subst ha hb
      dsimp only [Node.ty, Node.children, Node.path, Node.handler]
      split
      · rename_i heqf
        exact absurd heqf (by decide)
      · rename_i heqg heqf
        simp at heqg
      · rename_i x gc0 tail0 e0 heqg heqf
        injection heqg with hgc htail
        subst hgc
        have he2 : e0 = 2 := by
          have hf2 : List.findIdx? (fun c => c == '/')
              (List.drop (['/', 'u', '/'] : Str).length
                ['/', 'u', '/', '4', '2', '/', 'x', 'y']) = some 2 := by decide
          rw [hf2] at heqf
          exact (Option.some.inj heqf).symm
        subst he2
        exact hloc2
  rw [hadd]
  simp only [Except.bind]
  exact hloc

theorem find?_prefix_none {α : Type} (p : α → Bool) :
    ∀ (l₁ : List α) (a : α) (l₂ : List α), p a = true → (∀ x ∈ l₁, p x = false) →
    (l₁ ++ a :: l₂).find? p = some a := by
  intro l₁
  induction l₁ with
  | nil =>
    intro a l₂ ha _
    simp [List.find?_cons, ha]
  | cons q qs ih =>
    intro a l₂ ha hl
    have hq : p q = false := hl q (List.mem_cons_self _ _)
    rw [List.cons_append, List.find?_cons, hq]
    exact ih a l₂ ha (fun x hx => hl x (List.mem_cons_of_mem _ hx))

/-- C10: `path_params::get` throws `std::out_of_range` — embedded as `none` —
exactly when no stored entry has the requested key, and `path_params::try_get`
returns `std::nullopt` in exactly the same cases (the two run the identical
`find_if` scan); when at least one entry with the key exists, both return the
value of the first such entry in insertion order.  Both C++ members are
`const` and are embedded as pure functions of the container, so neither
mutates it. -/
theorem path_params_get_try_get_spec (ps₁ ps₂ : PathParams) (pam : Str × Str)
    (k : Str) (hk : pam.1 = k) (hfirst : ∀ q ∈ ps₁, q.1 ≠ k) :
    path_params_get (ps₁ ++ pam :: ps₂) k = some pam.2 ∧
    path_params_try_get (ps₁ ++ pam :: ps₂) k = some pam.2 ∧
    (∀ ps : PathParams,
      path_params_try_get ps k = path_params_get ps k ∧
      (path_params_get ps k = none ↔ ∀ q ∈ ps, q.1 ≠ k)) := by
  have hfind : (ps₁ ++ pam :: ps₂).find? (fun q => q.1 == k) = some pam := by
    apply find?_prefix_none
    · rw [beq_iff_eq]
      exact hk
    · intro x hx
      rw [beq_eq_false_iff_ne]
      exact hfirst x hx
  refine ⟨?_, ?_, ?_⟩
  · rw [path_params_get, hfind]
    rfl
  · rw [path_params_try_get, hfind]
    rfl
  · intro ps
    refine ⟨rfl, ?_⟩
    rw [path_params_get, Option.map_eq_none', List.find?_eq_none]
    constructor
    · intro h q hq
      have := h q hq
      rwa [beq_iff_eq] at this
    · intro h q hq
      rw [beq_iff_eq]
      exact h q hq

theorem path_params_get_try_get_spec_witness :
    path_params_get [((['b'] : Str), (['0'] : Str)), (['a'], ['1']), (['a'], ['2'])]
      ['a'] = some ['1'] ∧
    path_params_try_get [((['b'] : Str), (['0'] : Str)), (['a'], ['1']), (['a'], ['2'])]
      ['a'] = some ['1'] ∧
    (∀ ps : PathParams,
      path_params_try_get ps ['a'] = path_params_get ps ['a'] ∧
      (path_params_get ps ['a'] = none ↔ ∀ q ∈ ps, q.1 ≠ ['a'])) :=
  path_params_get_try_get_spec [((['b'] : Str), (['0'] : Str))] [((['a'] : Str), (['2'] : Str))]
    ((['a'] : Str), (['1'] : Str)) ['a'] (by decide)
    (by
      intro q hq
      rw [List.mem_singleton] at hq
      subst hq
      decide)

/-- `fawkes::middleware_result` (middleware.hpp). -/
inductive MwResult where
  | abort
  | proceed
  deriving DecidableEq, Repr

/-- A middleware over a state `σ` (standing for the `request`/`response` pair
the C++ members mutate): `pre?`/`post?` is `some f` when the middleware
defines the corresponding member — an awaitable collapses to its value in
this embedding — and `none` when it lacks it. -/
structure Mw (σ : Type) where
  pre? : Option (σ → σ × MwResult)
  post? : Option (σ → σ × MwResult)

/-- The generic lambda passed by `run_middlewares_pre_handle` /
`run_middlewares_post_handle` (middleware.hpp, lines 100–110 and 124–134):
invoke the member when the middleware has one, otherwise return `proceed`
without touching the state. -/
def mwInvoke {σ : Type} (g : Mw σ → Option (σ → σ × MwResult)) (m : Mw σ) (s : σ) :
    σ × MwResult :=
  match g m with
  | none => (s, .proceed)
  | some f => f s

/-- `detail::apply_middlewares_impl` (middleware.hpp, lines 57–75): the fold
expression `((co_await f(get<I>(mws)) == proceed) && ...)` over an index
sequence; `&&` short-circuits, so middlewares after the first `abort` are not
invoked.  The C++ instantiates the indices `I...` (forward) or `N-I-1...`
(backward); here the resolved index list is the argument. -/
def apply_middlewares_impl {σ : Type} (g : Mw σ → Option (σ → σ × MwResult))
    (mws : List (Mw σ)) : List Nat → σ → σ × Bool
  | [], s => (s, true)
  | i :: rest, s =>
    match mws[i]? with
    | none => (s, true)
    | some m =>
      match mwInvoke g m s with
      | (s1, .proceed) => apply_middlewares_impl g mws rest s1
      | (s1, .abort) => (s1, false)

/-- `detail::run_middlewares_pre_handle` (middleware.hpp, lines 89–113): an
empty pack returns `proceed`; otherwise the forward index sequence
`0, …, N-1` is applied and `run_all ? proceed : abort` is returned. -/
def run_middlewares_pre_handle {σ : Type} (mws : List (Mw σ)) (s : σ) : σ × MwResult :=
  if mws.isEmpty then (s, .proceed)
  else
    match apply_middlewares_impl (fun m => m.pre?) mws (List.range mws.length) s with
    | (s1, run_all) => (s1, if run_all then .proceed else .abort)

/-- `detail::run_middlewares_post_handle` (middleware.hpp, lines 115–137):
as the pre-handle run, but over the reversed indices `N-I-1`. -/
def run_middlewares_post_handle {σ : Type} (mws : List (Mw σ)) (s : σ) : σ × MwResult :=
  if mws.isEmpty then (s, .proceed)
  else
    match apply_middlewares_impl (fun m => m.post?)
        mws ((List.range mws.length).map (fun i => mws.length - i - 1)) s with
    | (s1, run_all) => (s1, if run_all then .proceed else .abort)

/-- Spec-modelled chain semantics (spec §5): visit the middlewares in the
order given, skipping members that are absent (they count as `proceed`), and
stop at — and report — the first `abort`, leaving later middlewares
uninvoked; an exhausted chain reports `proceed`. -/
def chain_run_spec {σ : Type} (g : Mw σ → Option (σ → σ × MwResult)) :
    List (Mw σ) → σ → σ × MwResult
  | [], s => (s, .proceed)
  | m :: rest, s =>
    match mwInvoke g m s with
    | (s1, .proceed) => chain_run_spec g rest s1
    | (s1, .abort) => (s1, .abort)

/-- The boolean fold of `apply_middlewares_impl` over the middlewares the
index list resolves to. -/
def mwRunSeq {σ : Type} (g : Mw σ → Option (σ → σ × MwResult)) :
    List (Mw σ) → σ → σ × Bool
  | [], s => (s, true)
  | m :: rest, s =>
    match mwInvoke g m s with
    | (s1, .proceed) => mwRunSeq g rest s1
    | (s1, .abort) => (s1, false)

theorem apply_middlewares_impl_eq_seq {σ : Type} (g : Mw σ → Option (σ → σ × MwResult))
    (mws : List (Mw σ)) :
    ∀ (l : List Nat) (s : σ), (∀ i ∈ l, i < mws.length) →
    apply_middlewares_impl g mws l s =
      mwRunSeq g (l.map (fun i => mws.getD i ⟨none, none⟩)) s := by
  intro l
  induction l with
  | nil => intro s _; rfl
  | cons i rest ih =>
    intro s hl
    have hi : i < mws.length := hl i (List.mem_cons_self _ _)
    have hg : mws[i]? = some (mws.getD i ⟨none, none⟩) := by
      rw [List.getElem?_eq_getElem hi, List.getD_eq_getElem?_getD,
        List.getElem?_eq_getElem hi]
      rfl
    rw [apply_middlewares_impl, hg, List.map_cons, mwRunSeq]
    dsimp only
    rcases hmv : mwInvoke g (mws.getD i ⟨none, none⟩) s with ⟨s1, r⟩
    cases r
    · rfl
    · exact ih s1 (fun j hj => hl j (List.mem_cons_of_mem _ hj))

theorem mwRunSeq_eq_chain_run_spec {σ : Type} (g : Mw σ → Option (σ → σ × MwResult)) :
    ∀ (ms : List (Mw σ)) (s : σ),
    chain_run_spec g ms s =
      (match mwRunSeq g ms s with
        | (s1, run_all) => (s1, if run_all then MwResult.proceed else .abort)) := by
  intro ms
  induction ms with
  | nil => intro s; rfl
  | cons m rest ih =>
    intro s
    rw [chain_run_spec, mwRunSeq]
    rcases hmv : mwInvoke g m s with ⟨s1, r⟩
    cases r
    · rfl
    · exact ih s1

theorem range_map_getD {σ : Type} (mws : List (Mw σ)) :
    (List.range mws.length).map (fun i => mws.getD i ⟨none, none⟩) = mws := by
  apply List.ext_getElem?
  intro j
  by_cases hj : j < mws.length
  · rw [List.getElem?_map, List.getElem?_range hj, Option.map_some',
      List.getD_eq_getElem?_getD, List.getElem?_eq_getElem hj]
    rfl
  · rw [List.getElem?_eq_none, List.getElem?_eq_none]
    · omega
    · simp only [List.length_map, List.length_range]
      omega

theorem range_map_getD_rev {σ : Type} (mws : List (Mw σ)) :
    ((List.range mws.length).map (fun i => mws.length - i - 1)).map
      (fun i => mws.getD i ⟨none, none⟩) = mws.reverse := by
  apply List.ext_getElem?
  intro j
  by_cases hj : j < mws.length
  · rw [List.getElem?_map, List.getElem?_map, List.getElem?_range hj, Option.map_some',
      Option.map_some', List.getElem?_reverse hj, List.getD_eq_getElem?_getD]
    rw [List.getElem?_eq_getElem (by omega : mws.length - j - 1 < mws.length)]
    have harith : mws.length - 1 - j = mws.length - j - 1 := by omega
    rw [harith, List.getElem?_eq_getElem (by omega : mws.length - j - 1 < mws.length)]
    rfl
  · rw [List.getElem?_eq_none, List.getElem?_eq_none]
    · simp only [List.length_reverse]
      omega
    · simp only [List.length_map, List.length_range]
      omega

/-- C3: the pre-handle run equals the spec chain over the registration order
(invoke each defined `pre_handle`, skip absent members as `proceed`, stop at
and report the first `abort`, leaving later middlewares uninvoked — the
short-circuit of the `&&` fold); the post-handle run is the same chain over
the reversed order; the empty chain reports `proceed` in both phases. -/
theorem middleware_chain_order (σ : Type) (mws : List (Mw σ)) (s : σ) :
    run_middlewares_pre_handle mws s = chain_run_spec (fun m => m.pre?) mws s ∧
    run_middlewares_post_handle mws s = chain_run_spec (fun m => m.post?) mws.reverse s ∧
    run_middlewares_pre_handle ([] : List (Mw σ)) s = (s, .proceed) ∧
    run_middlewares_post_handle ([] : List (Mw σ)) s = (s, .proceed) := by
  refine ⟨?_, ?_, rfl, rfl⟩
  · rw [run_middlewares_pre_handle]
    by_cases hemp : mws = []
    · subst hemp
      rfl
    · rw [if_neg (by simpa [List.isEmpty_eq_false] using hemp)]
      rw [apply_middlewares_impl_eq_seq _ _ _ _ (by
        intro i hi
        simpa using List.mem_range.mp (by simpa using hi))]
      rw [range_map_getD, mwRunSeq_eq_chain_run_spec]
  · rw [run_middlewares_post_handle]
    by_cases hemp : mws = []
    · subst hemp
      rfl
    · rw [if_neg (by simpa [List.isEmpty_eq_false] using hemp)]
      rw [apply_middlewares_impl_eq_seq _ _ _ _ (by
        intro i hi
        simp only [List.mem_map, List.mem_range] at hi
        obtain ⟨j, hj, hij⟩ := hi
        have hlen : 0 < mws.length := by
          cases mws
          · exact absurd rfl hemp
          · simp
        omega)]
      rw [range_map_getD_rev, mwRunSeq_eq_chain_run_spec]

/-- A `boost::json` value, as far as the error bodies built by the router and
server use it: strings, integers and objects. -/
inductive Jv where
  | str (s : Str)
  | int (n : Int)
  | obj (fields : List (Str × Jv))

/-- `mime::json` (mime.hpp). -/
def mimeJson : Str := "application/json".toList

/-- `fawkes::response`, restricted to what `response::json` writes: the
status, the `Content-Type` header and the body.  `json::serialize` is kept
abstract: the body holds the serialized object. -/
structure Resp where
  status : Nat
  contentType : Option Str
  body : Option Jv

/-- `response::json` (response.hpp, lines 79–83): set the status, set
`Content-Type: application/json`, assign the body. -/
def Resp.json (r : Resp) (status : Nat) (data : Jv) : Resp :=
  { r with status := status, contentType := some mimeJson, body := some data }

/-- The error body the router's catch blocks build (router.hpp, lines 78–87):
`{"error": {"message": msg}}`, extended with `"code": code` when the
`http_error` carries one. -/
def errBody (msg : Str) (code : Option Int) : Jv :=
  .obj [("error".toList,
    .obj (("message".toList, .str msg) ::
      (match code with
        | none => []
        | some c => [("code".toList, Jv.int c)])))]

/-- How a user handler invocation ends: normally, with a thrown
`fawkes::http_error` (status, optional numeric code, message), or with any
other exception (message only). -/
inductive UserExc where
  | ok
  | httpError (status : Nat) (code : Option Int) (msg : Str)
  | other (msg : Str)

/-- The route entry `router::add_route` wraps around the user handler
(router.hpp, lines 60–91): run the per-route pre-handle chain and return
`abort` if it aborts; otherwise run the user handler, mapping a thrown
`http_error` to `resp.json(status, {"error":{"message", "code"?}})` and any
other exception to `resp.json(500, {"error":{"message"}})`; finally run —
and return the result of — the per-route post-handle chain. -/
def route_entry (mws : List (Mw Resp)) (user : Resp → Resp × UserExc) (resp : Resp) :
    Resp × MwResult :=
  match run_middlewares_pre_handle mws resp with
  | (resp1, .abort) => (resp1, .abort)
  | (resp1, .proceed) =>
    match user resp1 with
    | (resp2, .ok) => run_middlewares_post_handle mws resp2
    | (resp2, .httpError st code msg) =>
      run_middlewares_post_handle mws (resp2.json st (errBody msg code))
    | (resp2, .other msg) =>
      run_middlewares_post_handle mws (resp2.json 500 (errBody msg none))

/-- `server::handle_request` (server.cpp, lines 158–196), past the
route lookup: run the router-wide pre-handle chain, returning at once on
`abort`; with no handler located, set the 404 `Unknown resource` JSON body,
run the router-wide post-handle chain best-effort (its result discarded) and
return; with a handler, run it, return at once when a per-route middleware
aborted, otherwise run the router-wide post-handle chain best-effort and
return. -/
def handle_request (base : List (Mw Resp)) (entry? : Option (Resp → Resp × MwResult))
    (resp : Resp) : Resp :=
  match run_middlewares_pre_handle base resp with
  | (resp1, .abort) => resp1
  | (resp1, .proceed) =>
    match entry? with
    | none =>
      let resp2 := resp1.json 404 (errBody "Unknown resource".toList none)
      (run_middlewares_post_handle base resp2).1
    | some entry =>
      match entry resp1 with
      | (resp2, .abort) => resp2
      | (resp2, .proceed) => (run_middlewares_post_handle base resp2).1

/-- C5: when the per-route pre-handle chain proceeds, a user handler that
throws an `http_error` with status `st` (and optional code) yields the
response `resp2.json st {"error":{"message": msg, "code"?: code}}`, any
other exception yields `resp2.json 500 {"error":{"message": msg}}`, and in
both cases the entry's result is exactly the per-route post-handle chain run
on that response — the chain is not skipped; and whenever the entry reports
`proceed`, `handle_request` still runs the router-wide post-handle chain. -/
theorem route_entry_error_boundary (mws : List (Mw Resp))
    (user : Resp → Resp × UserExc) (resp resp1 : Resp)
    (hpre : run_middlewares_pre_handle mws resp = (resp1, .proceed)) :
    (∀ resp2 st code msg, user resp1 = (resp2, .httpError st code msg) →
      route_entry mws user resp =
        run_middlewares_post_handle mws (resp2.json st (errBody msg code))) ∧
    (∀ resp2 msg, user resp1 = (resp2, .other msg) →
      route_entry mws user resp =
        run_middlewares_post_handle mws (resp2.json 500 (errBody msg none))) ∧
    (∀ (base : List (Mw Resp)) (resp0 resp0' resp2 : Resp),
      run_middlewares_pre_handle base resp0 = (resp0', .proceed) →
      route_entry mws user resp0' = (resp2, .proceed) →
      handle_request base (some (route_entry mws user)) resp0 =
        (run_middlewares_post_handle base resp2).1) := by
  refine ⟨?_, ?_, ?_⟩
  · intro resp2 st code msg huser
    rw [route_entry, hpre]
    dsimp only
    rw [huser]
  · intro resp2 msg huser
    rw [route_entry, hpre]
    dsimp only
    rw [huser]
  · intro base resp0 resp0' resp2 hbase hentry
    rw [handle_request, hbase]
    dsimp only
    rw [hentry]

theorem route_entry_error_boundary_witness :
    (∀ resp2 st code msg,
      (fun r : Resp => (r, UserExc.httpError 418 (some 7) "teapot".toList))
        (Resp.mk 200 none none) = (resp2, .httpError st code msg) →
      route_entry [] (fun r => (r, .httpError 418 (some 7) "teapot".toList))
          (Resp.mk 200 none none) =
        run_middlewares_post_handle [] (resp2.json st (errBody msg code))) ∧
    (∀ resp2 msg,
      (fun r : Resp => (r, UserExc.httpError 418 (some 7) "teapot".toList))
        (Resp.mk 200 none none) = (resp2, .other msg) →
      route_entry [] (fun r => (r, .httpError 418 (some 7) "teapot".toList))
          (Resp.mk 200 none none) =
        run_middlewares_post_handle [] (resp2.json 500 (errBody msg none))) ∧
    (∀ (base : List (Mw Resp)) (resp0 resp0' resp2 : Resp),
      run_middlewares_pre_handle base resp0 = (resp0', .proceed) →
      route_entry [] (fun r => (r, .httpError 418 (some 7) "teapot".toList)) resp0' =
        (resp2, .proceed) →
      handle_request base
          (some (route_entry [] (fun r => (r, .httpError 418 (some 7) "teapot".toList))))
          resp0 =
        (run_middlewares_post_handle base resp2).1) :=
  route_entry_error_boundary []
    (fun r => (r, .httpError 418 (some 7) "teapot".toList))
    (Resp.mk 200 none none) (Resp.mk 200 none none) rfl

/-- C6: when route lookup yields no handler and the router-wide pre-handle
chain proceeds, `handle_request` sets the response to status 404 with the
JSON body `{"error":{"message":"Unknown resource"}}` and
`Content-Type: application/json`, still runs the router-wide post-handle
chain on that response with its abort result ignored, and returns the
chain's final response. -/
theorem handle_request_unknown_resource (base : List (Mw Resp)) (resp resp1 : Resp)
    (hpre : run_middlewares_pre_handle base resp = (resp1, .proceed)) :
    handle_request base none resp =
      (run_middlewares_post_handle base
        (resp1.json 404 (errBody "Unknown resource".toList none))).1 ∧
    (resp1.json 404 (errBody "Unknown resource".toList none)).status = 404 ∧
    (resp1.json 404 (errBody "Unknown resource".toList none)).body =
      some (errBody "Unknown resource".toList none) ∧
    (resp1.json 404 (errBody "Unknown resource".toList none)).contentType =
      some mimeJson := by
  refine ⟨?_, rfl, rfl, rfl⟩
  rw [handle_request, hpre]

theorem handle_request_unknown_resource_witness :
    handle_request [] none (Resp.mk 200 none none) =
      (run_middlewares_post_handle []
        ((Resp.mk 200 none none).json 404 (errBody "Unknown resource".toList none))).1 ∧
    ((Resp.mk 200 none none).json 404 (errBody "Unknown resource".toList none)).status =
      404 ∧
    ((Resp.mk 200 none none).json 404 (errBody "Unknown resource".toList none)).body =
      some (errBody "Unknown resource".toList none) ∧
    ((Resp.mk 200 none none).json 404
      (errBody "Unknown resource".toList none)).contentType = some mimeJson :=
  handle_request_unknown_resource [] (Resp.mk 200 none none) (Resp.mk 200 none none) rfl

end Fawkes
